import Mathlib

/-!
# Parallel Mandelbrot: partition, kernel and transport

A shallow embedding of the three MPI programs `mpi_omp.c` (contiguous blocks,
`MPI_Gather`), `isend.c` (row interleaving, `MPI_Isend`/`MPI_Irecv`) and
`pack.c` (row interleaving, `MPI_Pack`/`MPI_Unpack`).

Counts, indices and offsets are natural numbers, the exact values of the
`int` expressions of the programs; the value that the 32-bit `int` variable
holds is given by `int32` (`tileIndexInt`, `gatherCountInt`, `recvOffsetInt`,
`ownedRowInt`) and agrees with the exact value as long as the raster has at
most `INT_MAX` bytes.  The `double` arithmetic of `Compute` is taken over an
arbitrary arithmetic where only the control flow matters, and over the
rationals (exact arithmetic) where values matter.
-/

namespace Mandelbrot

/-! ## Partition of the raster rows -/

/-- Rows per rank in `mpi_omp.c`: `int locheight = height/nbProc;`. -/
def locheight (height nbProc : Nat) : Nat := height / nbProc

/-- Index written by `Compute` of `mpi_omp.c` in the local tile,
`im -> pixels [im -> nb_columns*l+c]`: the exact value of the expression
(`tileIndexInt` is the value of the `int`). -/
def tileIndex (nb_columns l c : Nat) : Nat := nb_columns * l + c

/-- Offset in `im.pixels` at which `MPI_Gather` (send and receive count
`width*locheight`, exact value; `gatherCountInt` is the value of the `int`)
stores byte `k` of the tile of rank `myRank`. -/
def gatherOffset (width height nbProc myRank k : Nat) : Nat :=
  myRank * (width * locheight height nbProc) + k

/-- Raster row that holds local row `l` of the tile of rank `myRank` after the
gather of `mpi_omp.c`. -/
def gatherRow (height nbProc myRank l : Nat) : Nat :=
  myRank * locheight height nbProc + l

/-- Rounds per rank in `isend.c` and `pack.c`: `lsize = height/size;`. -/
def lsize (height size : Nat) : Nat := height / size

/-- Bytes per local tile in `isend.c` (`loc_size`) and `pack.c`
(`local_size`): `(int)(width*locheight)` with `locheight = 1`. -/
def local_size (width : Nat) : Nat := width * 1

/-- Row of the domain that rank `rank` computes in round `jj`, the factor of
`dy` in `loc_ymax = y_max-dy*(rank+size*jj)`: the exact value of the
expression (`ownedRowInt` is the value of the `int`). -/
def ownedRow (size rank jj : Nat) : Nat := rank + size * jj

/-- Offset in `im.pixels` where the coordinator puts the row of rank `r` of
round `jj`, `l = (jj*size+r)*loc_size`: the exact value of the expression
(`recvOffsetInt` is the value of the `int` variable `l`). -/
def recvOffset (width size jj r : Nat) : Nat := (jj * size + r) * local_size width

/-- Raster row addressed by `recvOffset`. -/
def destRow (size jj r : Nat) : Nat := jj * size + r

/-- All raster rows held by the tiles of the `nbProc` ranks of `mpi_omp.c`,
rank by rank. -/
def contiguousRows (height nbProc : Nat) : List Nat :=
  (List.range nbProc).flatMap fun myRank =>
    (List.range (locheight height nbProc)).map fun l => gatherRow height nbProc myRank l

/-- All rows computed by the `size` ranks of `isend.c` and `pack.c`, rank by
rank, one per round. -/
def interleavedRows (height size : Nat) : List Nat :=
  (List.range size).flatMap fun rank =>
    (List.range (lsize height size)).map fun jj => ownedRow size rank jj


/-! ## The type `int` -/

/-- Largest value of the 32-bit type `int`. -/
def INT_MAX : Nat := 2147483647

/-- Value that a 32-bit `int` holds after an operation whose exact result is
`z`: the representative of `z` modulo `2^32` between `-2^31` and `2^31 - 1`
(the wrap-around of two's complement machines; the C standard leaves signed
overflow undefined). -/
def int32 (z : Int) : Int := (z + 2147483648) % 4294967296 - 2147483648

/-- The `int` index `im -> nb_columns*l+c` of `Compute` in `mpi_omp.c`, as the
machine computes it. -/
def tileIndexInt (nb_columns l c : Nat) : Int :=
  int32 (int32 ((nb_columns : Int) * (l : Int)) + (c : Int))

/-- The `int` count `width*locheight` handed to `MPI_Gather` in `mpi_omp.c`, as
the machine computes it. -/
def gatherCountInt (width height nbProc : Nat) : Int :=
  int32 ((width : Int) * ((locheight height nbProc : Nat) : Int))

/-- The `int` variable `l = (jj*size+r)*loc_size` of `isend.c` and `pack.c`
(`loc_size = (int)(width*locheight)` with `locheight = 1`), as the machine
computes it. -/
def recvOffsetInt (width size jj r : Nat) : Int :=
  int32 (int32 (int32 ((jj : Int) * (size : Int)) + (r : Int)) * int32 ((width : Int) * 1))

/-- The `int` expression `rank+size*jj` of `isend.c` and `pack.c`, as the
machine computes it. -/
def ownedRowInt (size rank jj : Nat) : Int :=
  int32 ((rank : Int) + int32 ((size : Int) * (jj : Int)))

/-! ## The pixel kernel `Compute` -/

/-- The escape loop of `Compute`,
`i=0; while (i < nb_iter) { tmp = x; x = x*x - y*y + a; y = 2*tmp*y + b;
if (x*x + y*y > 4) break; else i++; }`,
over any arithmetic `α`.  The first argument is the number of iterations the
loop condition still allows (`nb_iter - i`), the second the counter `i`; the
result is the value of `i` when the loop is left. -/
def escape {α : Type} [Add α] [Sub α] [Mul α] [OfNat α 2] [OfNat α 4] [LT α]
    [DecidableRel (LT.lt : α → α → Prop)] (a b : α) : Nat → Nat → α → α → Nat
  | 0, i, _, _ => i
  | k + 1, i, x, y =>
    let x1 := x * x - y * y + a
    let y1 := 2 * x * y + b
    if x1 * x1 + y1 * y1 > 4 then i else escape a b k (i + 1) x1 y1

/-- One pass through the loop body: the new `(x, y)`. -/
def orbitStep {α : Type} [Add α] [Sub α] [Mul α] [OfNat α 2] (a b : α) (p : α × α) : α × α :=
  (p.1 * p.1 - p.2 * p.2 + a, 2 * p.1 * p.2 + b)

/-- The point `(x, y)` after `k` passes through the loop body, from `p`. -/
def orbit {α : Type} [Add α] [Sub α] [Mul α] [OfNat α 2] (a b : α) (p : α × α) : Nat → α × α
  | 0 => p
  | k + 1 => orbit a b (orbitStep a b p) k

/-- The divergence test `x * x + y * y > 4`. -/
def diverged {α : Type} [Add α] [Mul α] [OfNat α 4] [LT α] (p : α × α) : Prop :=
  p.1 * p.1 + p.2 * p.2 > 4

/-- Iterations completed by `Compute` at the point `(a, b)`: the loop run
from `i = 0`, `x = 0`, `y = 0`. -/
def iterations (a b : ℚ) (nb_iter : Nat) : Nat := escape a b nb_iter 0 0 0

/-- The point of the plane that `Compute` takes for row `l` and column `c`:
`dx = (x_max - x_min) / nb_columns`, `dy = (y_max - y_min) / nb_rows`,
`a = x_min + c * dx`, `b = y_max - l * dy`, in exact arithmetic. -/
def computePoint (nb_rows nb_columns : Nat) (x_min x_max y_min y_max : ℚ) (l c : Nat) : ℚ × ℚ :=
  let dx := (x_max - x_min) / nb_columns
  let dy := (y_max - y_min) / nb_rows
  (x_min + c * dx, y_max - l * dy)

/-- The value `(double) i / nb_iter * 255` in exact arithmetic. -/
def intensity (i nb_iter : Nat) : ℚ := (i : ℚ) / nb_iter * 255

/-- The pixel stored by `im -> pixels [pos] = (double) i / nb_iter * 255;`: the
conversion of a non-negative `double` to `char` discards the fractional
part. -/
def pixelByte (i nb_iter : Nat) : Nat := ⌊intensity i nb_iter⌋₊

/-- The pixel `Compute` stores for row `l` and column `c` of an image of
`nb_rows` by `nb_columns` cells. -/
def computePixel (nb_rows nb_columns nb_iter : Nat) (x_min x_max y_min y_max : ℚ)
    (l c : Nat) : Nat :=
  pixelByte
    (iterations (computePoint nb_rows nb_columns x_min x_max y_min y_max l c).1
      (computePoint nb_rows nb_columns x_min x_max y_min y_max l c).2 nb_iter)
    nb_iter

/-- The pixel that the loop and the assignment of `Compute` produce at the
point `p = (a, b)` with the budget `nb_iter`. -/
def pixelAt (p : ℚ × ℚ) (nb_iter : Nat) : Nat := pixelByte (iterations p.1 p.2 nb_iter) nb_iter

/-- The intensity of the specification, `round(255 · itersCompleted / iterBudget)`. -/
def specIntensity (i n : Nat) : ℤ := round ((255 : ℚ) * i / n)

/-! ## Bounds handed to `Compute` by the three `main` functions -/

/-- The loop `for (i = 0; i<=nbProc; i++){ arr[i] = min; min = min+d; }` of
`mpi_omp.c`: the entries still to be written, from the running value `min`. -/
def arrLoop (d : ℚ) : Nat → ℚ → List ℚ
  | 0, _ => []
  | k + 1, min => min :: arrLoop d k (min + d)

/-- The array `arr` of `mpi_omp.c`, with `d = (y_max-y_min)/nbProc` and
`min = y_min`. -/
def arr (nbProc : Nat) (y_min y_max : ℚ) : List ℚ :=
  arrLoop ((y_max - y_min) / nbProc) (nbProc + 1) y_min

/-- Point taken by rank `myRank` of `mpi_omp.c` for local row `l`, column `c`:
`Compute (& imloc, nb_iter, x_min, x_max, arr[nbProc-myRank-1], arr[nbProc-myRank])`
on a tile of `locheight` rows. -/
def contiguousPoint (width height nbProc : Nat) (x_min x_max y_min y_max : ℚ)
    (myRank l c : Nat) : ℚ × ℚ :=
  computePoint (locheight height nbProc) width x_min x_max
    ((arr nbProc y_min y_max).getD (nbProc - myRank - 1) 0)
    ((arr nbProc y_min y_max).getD (nbProc - myRank) 0) l c

/-- Upper bound of the one-row band of rank `rank` in round `jj` of `isend.c`
and `pack.c`: `dy = (y_max-y_min)/height; loc_ymax = y_max-dy*(rank+size*jj);`. -/
def loc_ymax (height size : Nat) (y_min y_max : ℚ) (rank jj : Nat) : ℚ :=
  y_max - (y_max - y_min) / height * ((ownedRowInt size rank jj : Int) : ℚ)

/-- Lower bound of that band: `loc_ymin = loc_ymax-dy;`. -/
def loc_ymin (height size : Nat) (y_min y_max : ℚ) (rank jj : Nat) : ℚ :=
  loc_ymax height size y_min y_max rank jj - (y_max - y_min) / height

/-- Point taken by rank `rank` of `isend.c` and `pack.c` in round `jj` for
column `c`: `Compute (& imloc, nb_iter, x_min, x_max, loc_ymin, loc_ymax)` on
a tile of one row. -/
def interleavedPoint (width height size : Nat) (x_min x_max y_min y_max : ℚ)
    (rank jj c : Nat) : ℚ × ℚ :=
  computePoint 1 width x_min x_max (loc_ymin height size y_min y_max rank jj)
    (loc_ymax height size y_min y_max rank jj) 0 c

/-- The point of the specification for raster row `g` and column `c`:
`a = x_min + c*(x_max - x_min)/W`, `b = y_max - g*(y_max - y_min)/H`. -/
def specPoint (W H : Nat) (x_min x_max y_min y_max : ℚ) (g c : Nat) : ℚ × ℚ :=
  (x_min + c * (x_max - x_min) / W, y_max - g * (y_max - y_min) / H)

/-! ## Byte memory and the pack/unpack transport of `pack.c` -/

/-- Bytes addressed by their offset from a base pointer. -/
abbrev Mem := Nat → Nat

/-- Size of the pack buffer, `char buffer[1<<20]`, also the size handed to
`MPI_Pack`, `MPI_Send`, `MPI_Recv` and `MPI_Unpack`. -/
def bufferCapacity : Nat := 1 <<< 20

/-- Bytes allocated by `initialization`:
`malloc (sizeof (char) * nb_rows * nb_columns)`. -/
def allocSize (nb_columns nb_rows : Nat) : Nat := 1 * nb_rows * nb_columns

/-- The library call `MPI_Pack(inbuf, incount, MPI_CHAR, outbuf, outsize,
&position, comm)`: copies `incount` bytes of `inbuf` to `outbuf` at `position`
and advances `position` by `incount`; an error when they do not fit in
`outsize`. -/
def MPI_Pack (inbuf : Mem) (incount : Nat) (outbuf : Mem) (outsize position : Nat) :
    Option (Mem × Nat) :=
  if position + incount ≤ outsize then
    some (fun k => if position ≤ k ∧ k < position + incount then inbuf (k - position)
      else outbuf k, position + incount)
  else none

/-- The library call `MPI_Unpack(inbuf, insize, &position, outbuf, outcount,
MPI_CHAR, comm)` with `outbuf` the address `dst` inside the memory `mem`:
copies `outcount` bytes of `inbuf` from `position` to `mem` at `dst` and
advances `position` by `outcount`; an error when `inbuf` has fewer bytes
left. -/
def MPI_Unpack (inbuf : Mem) (insize position : Nat) (mem : Mem) (dst outcount : Nat) :
    Option (Mem × Nat) :=
  if position + outcount ≤ insize then
    some (fun k => if dst ≤ k ∧ k < dst + outcount then inbuf (position + (k - dst))
      else mem k, position + outcount)
  else none

/-- The pack loop of a rank other than 0 in `pack.c`, for the first `rounds`
rounds: `MPI_Pack(&(imloc.pixels[0]), local_size+1, MPI_CHAR, buffer, 1<<20,
&id, MPI_COMM_WORLD)` with `id` starting at 0.  `imloc jj` is the memory at
`imloc.pixels` after `Compute` of round `jj`: offsets below `width` are the
tile, offset `width` is the byte behind the allocation. -/
def packRounds (imloc : Nat → Mem) (width rounds : Nat) (buffer : Mem) : Option (Mem × Nat) :=
  (List.range rounds).foldlM
    (fun st jj => MPI_Pack (imloc jj) (local_size width + 1) st.1 bufferCapacity st.2)
    (buffer, 0)

/-- Closed form of the buffer after `k` records of `local_size + 1` bytes have
been appended to `buffer` by `packRounds`. -/
def packedBuffer (imloc : Nat → Mem) (W k : Nat) (buffer : Mem) : Mem :=
  fun a =>
    if a < k * (local_size W + 1) then
      imloc (a / (local_size W + 1)) (a % (local_size W + 1))
    else buffer a

/-- The unpack loop of rank 0 in `pack.c` for the buffer of rank `r`, for the
first `rounds` rounds: `id = 0;` then `l = (jj*size+r)*local_size;
MPI_Unpack(buffer, 1<<20, &id, &(im.pixels[l]), local_size+1, MPI_CHAR,
MPI_COMM_WORLD)`. -/
def unpackRounds (width size r : Nat) (buffer : Mem) (rounds : Nat) (im : Mem) :
    Option (Mem × Nat) :=
  (List.range rounds).foldlM
    (fun st jj => MPI_Unpack buffer bufferCapacity st.2 st.1 (recvOffset width size jj r)
      (local_size width + 1))
    (im, 0)

/-- Rank 0 of `pack.c` stores its own row of round `jj`:
`l = (jj*size)*local_size; for(int i=0; i<width; i++) im.pixels[l+i] = imloc.pixels[i];`. -/
def copyOwnRow (width size : Nat) (imloc : Mem) (jj : Nat) (im : Mem) : Mem :=
  fun k => if (jj * size) * local_size width ≤ k ∧ k < (jj * size) * local_size width + width
    then imloc (k - (jj * size) * local_size width) else im k

/-- The compute loop of rank 0 in `pack.c`: its own rows of all rounds.
`tile rank jj` is the memory at `imloc.pixels` of rank `rank` after round `jj`. -/
def coordinatorRows (tile : Nat → Nat → Mem) (width height size : Nat) (im : Mem) : Mem :=
  (List.range (lsize height size)).foldl (fun m jj => copyOwnRow width size (tile 0 jj) jj m) im

/-- The ranks rank 0 receives from in `pack.c`: `for(int r=1; r<size; r++)`. -/
def receiveRanks (size : Nat) : List Nat := List.range' 1 (size - 1)

/-- The receive loop of rank 0 in `pack.c`: for each rank `r` of
`receiveRanks`, `MPI_Recv(buffer, 1<<20, MPI_PACKED, r, ...)` delivers the
`1<<20` bytes that `r` packed and handed to `MPI_Send`, and the unpack loop
stores them into `im.pixels`.  `buffer r` is the content of the buffer of `r`
before its pack loop. -/
def coordinatorReceive (tile : Nat → Nat → Mem) (width height size : Nat)
    (buffer : Nat → Mem) (im : Mem) : Option Mem :=
  (receiveRanks size).foldlM
    (fun m r => do
      let sent ← packRounds (tile r) width (lsize height size) (buffer r)
      let res ← unpackRounds width size r sent.1 (lsize height size) m
      pure res.1)
    im

/-- The memory at `im.pixels` of rank 0 when `pack.c` reaches `save`. -/
def packProgram (tile : Nat → Nat → Mem) (width height size : Nat)
    (buffer : Nat → Mem) (im : Mem) : Option Mem :=
  coordinatorReceive tile width height size buffer (coordinatorRows tile width height size im)

/-- Destination ranges (offset, length) of the `MPI_Unpack` calls of rank 0 in
`pack.c`. -/
def packWrites (width height size : Nat) : List (Nat × Nat) :=
  (receiveRanks size).flatMap fun r =>
    (List.range (lsize height size)).map fun jj =>
      (recvOffset width size jj r, local_size width + 1)

/-- Destination ranges (offset, length) of the `MPI_Irecv` calls of rank 0 in
`isend.c`: `for(int r=0; r<size; r++)` inside the loop over the rounds. -/
def isendWrites (width height size : Nat) : List (Nat × Nat) :=
  (List.range (lsize height size)).flatMap fun jj =>
    (List.range size).map fun r => (recvOffset width size jj r, local_size width + 1)

/-- A destination range lies inside the raster allocated for `width` by
`height` pixels. -/
def insideRaster (width height : Nat) (w : Nat × Nat) : Prop :=
  w.1 + w.2 ≤ allocSize width height

/-! ## Tiles of the workers and the gather of `mpi_omp.c` -/

/-- The memory at `imloc.pixels` of rank `rank` after `Compute` of round `jj`
in `isend.c` and `pack.c`: the `width` pixels of the one-row tile, written at
`pos = 0, 1, ...`; `behind rank jj` is the byte behind the allocation of
`width` bytes. -/
def interleavedTile (width height size nb_iter : Nat) (x_min x_max y_min y_max : ℚ)
    (behind : Nat → Nat → Nat) : Nat → Nat → Mem :=
  fun rank jj k =>
    if k < width then
      computePixel 1 width nb_iter x_min x_max (loc_ymin height size y_min y_max rank jj)
        (loc_ymax height size y_min y_max rank jj) 0 k
    else behind rank jj

/-- The memory at `imloc.pixels` of rank `myRank` after `Compute` in
`mpi_omp.c`: offset `nb_columns*l+c` holds the pixel of local row `l` and
column `c`; `behind` is the memory behind the `width*locheight` bytes of the
tile. -/
def contiguousTile (width height nbProc nb_iter : Nat) (x_min x_max y_min y_max : ℚ)
    (behind : Mem) (myRank : Nat) : Mem :=
  fun k =>
    if k < width * locheight height nbProc then
      computePixel (locheight height nbProc) width nb_iter x_min x_max
        ((arr nbProc y_min y_max).getD (nbProc - myRank - 1) 0)
        ((arr nbProc y_min y_max).getD (nbProc - myRank) 0) (k / width) (k % width)
    else behind k

/-- The library call `MPI_Gather(sendbuf, count, MPI_CHAR, recvbuf, count,
MPI_CHAR, 0, comm)` seen from rank 0: the `count` bytes sent by rank `i` are
stored in `recvbuf` from offset `i*count`, for the `nbProc` ranks. -/
def MPI_Gather (sendbuf : Nat → Mem) (count nbProc : Nat) (recvbuf : Mem) : Mem :=
  fun k => if k < nbProc * count then sendbuf (k / count) (k % count) else recvbuf k

/-- The memory at `im.pixels` of rank 0 when `mpi_omp.c` reaches `save`:
`MPI_Gather(& imloc.pixels[0], width*locheight, MPI_CHAR, & im.pixels[0],
width*locheight, MPI_CHAR, 0, MPI_COMM_WORLD)` on the tiles of the ranks. -/
def gatherProgram (width height nbProc nb_iter : Nat) (x_min x_max y_min y_max : ℚ)
    (behind im : Mem) : Mem :=
  MPI_Gather (contiguousTile width height nbProc nb_iter x_min x_max y_min y_max behind)
    (width * locheight height nbProc) nbProc im

/-! ## Receive requests of rank 0 in `isend.c` -/

/-- The requests of rank 0: the handle stored in the variable `request_recv`
and the receives issued and not yet completed, each named by its round and
source rank. -/
structure Requests where
  request_recv : Option (Nat × Nat)
  outstanding : List (Nat × Nat)

/-- The library call `MPI_Irecv(..., r, tag, MPI_COMM_WORLD, &request_recv)` of
round `jj`: a new request is outstanding and its handle overwrites
`request_recv`. -/
def MPI_Irecv (jj r : Nat) (s : Requests) : Requests :=
  ⟨some (jj, r), s.outstanding ++ [(jj, r)]⟩

/-- The library call `MPI_Wait(&request_recv, &status)`: completes the request
whose handle is in `request_recv` and sets the handle to the null request;
returns at once on the null request. -/
def MPI_Wait (s : Requests) : Requests :=
  match s.request_recv with
  | none => s
  | some h => ⟨none, s.outstanding.erase h⟩

/-- Round `jj` of rank 0 in `isend.c`:
`for(int r=0; r<size; r++) MPI_Irecv(...); if(size>1) MPI_Wait(&request_recv, &status);`. -/
def isendRound (size jj : Nat) (s : Requests) : Requests :=
  if size > 1 then MPI_Wait ((List.range size).foldl (fun t r => MPI_Irecv jj r t) s)
  else (List.range size).foldl (fun t r => MPI_Irecv jj r t) s

/-- The requests of rank 0 after the first `rounds` rounds of `isend.c`; the
handle `request_recv`, not assigned before the first `MPI_Irecv`, starts as
the null request. -/
def isendRounds (size rounds : Nat) : Requests :=
  (List.range rounds).foldl (fun s jj => isendRound size jj s) ⟨none, []⟩

/-- The requests of rank 0 when `isend.c` reaches `save`: all `lsize` rounds,
then `if(rank==0 && size>1) MPI_Wait(&request_recv, &status);`. -/
def isendCoordinator (height size : Nat) : Requests :=
  if size > 1 then MPI_Wait (isendRounds size (lsize height size))
  else isendRounds size (lsize height size)

/-! ### The type `int` -/

theorem int32_of_le (z : Int) (h0 : 0 ≤ z) (h1 : z ≤ 2147483647) : int32 z = z := by
  unfold int32
  omega

theorem ownedRowInt_eq (size rank jj : Nat) (h : ownedRow size rank jj ≤ INT_MAX) :
    ownedRowInt size rank jj = ((ownedRow size rank jj : Nat) : Int) := by
  unfold ownedRow INT_MAX at h
  unfold ownedRowInt ownedRow
  have h1 : ((size * jj : Nat) : Int) ≤ 2147483647 := by exact_mod_cast (by omega : size * jj ≤ 2147483647)
  have h2 : ((rank + size * jj : Nat) : Int) ≤ 2147483647 := by exact_mod_cast h
  push_cast at h1 h2 ⊢
  rw [int32_of_le _ (by positivity) h1, int32_of_le _ (by positivity) h2]

theorem recvOffsetInt_eq (width size jj r : Nat) (hw : width ≤ INT_MAX)
    (hrow : destRow size jj r ≤ INT_MAX) (hoff : recvOffset width size jj r ≤ INT_MAX) :
    recvOffsetInt width size jj r = ((recvOffset width size jj r : Nat) : Int) := by
  unfold destRow INT_MAX at hrow
  unfold recvOffset local_size INT_MAX at hoff
  unfold INT_MAX at hw
  unfold recvOffsetInt recvOffset local_size
  have h1 : ((jj * size : Nat) : Int) ≤ 2147483647 := by exact_mod_cast (by omega : jj * size ≤ 2147483647)
  have h2 : ((jj * size + r : Nat) : Int) ≤ 2147483647 := by exact_mod_cast hrow
  have h3 : ((width * 1 : Nat) : Int) ≤ 2147483647 := by exact_mod_cast (by omega : width * 1 ≤ 2147483647)
  have h4 : (((jj * size + r) * (width * 1) : Nat) : Int) ≤ 2147483647 := by exact_mod_cast hoff
  push_cast at h1 h2 h3 h4 ⊢
  rw [int32_of_le _ (by positivity) h1, int32_of_le _ (by positivity) h2,
    int32_of_le _ (by positivity) h3, int32_of_le _ (by positivity) h4]

theorem tileIndexInt_eq (nb_columns l c : Nat) (h : tileIndex nb_columns l c ≤ INT_MAX) :
    tileIndexInt nb_columns l c = ((tileIndex nb_columns l c : Nat) : Int) := by
  unfold tileIndex INT_MAX at h
  unfold tileIndexInt tileIndex
  have h1 : ((nb_columns * l : Nat) : Int) ≤ 2147483647 := by exact_mod_cast (by omega : nb_columns * l ≤ 2147483647)
  have h2 : ((nb_columns * l + c : Nat) : Int) ≤ 2147483647 := by exact_mod_cast h
  push_cast at h1 h2 ⊢
  rw [int32_of_le _ (by positivity) h1, int32_of_le _ (by positivity) h2]

theorem gatherCountInt_eq (width height nbProc : Nat)
    (h : width * locheight height nbProc ≤ INT_MAX) :
    gatherCountInt width height nbProc = ((width * locheight height nbProc : Nat) : Int) := by
  unfold INT_MAX at h
  unfold gatherCountInt
  have h1 : ((width * locheight height nbProc : Nat) : Int) ≤ 2147483647 := by exact_mod_cast h
  push_cast at h1 ⊢
  rw [int32_of_le _ (by positivity) h1]

/-! ### Partition lemmas -/

theorem gatherOffset_tileIndex (width height nbProc myRank l c : Nat) :
    gatherOffset width height nbProc myRank (tileIndex width l c)
      = gatherRow height nbProc myRank l * width + c := by
  unfold gatherOffset tileIndex gatherRow
  ring

theorem recvOffset_eq (width size jj r : Nat) :
    recvOffset width size jj r = destRow size jj r * width := by
  simp [recvOffset, destRow, local_size]

theorem destRow_eq_ownedRow (size jj r : Nat) : destRow size jj r = ownedRow size r jj := by
  unfold destRow ownedRow
  ring

theorem gatherRow_lt {height nbProc i l : Nat} (hi : i < nbProc)
    (hl : l < locheight height nbProc) :
    gatherRow height nbProc i l < nbProc * locheight height nbProc := by
  unfold gatherRow
  calc i * locheight height nbProc + l
      < i * locheight height nbProc + locheight height nbProc := by omega
    _ = (i + 1) * locheight height nbProc := by ring
    _ ≤ nbProc * locheight height nbProc := Nat.mul_le_mul_right _ hi

theorem ownedRow_lt {height size r jj : Nat} (hr : r < size) (hj : jj < lsize height size) :
    ownedRow size r jj < size * lsize height size := by
  unfold ownedRow
  calc r + size * jj < size + size * jj := by omega
    _ = size * (jj + 1) := by ring
    _ ≤ size * lsize height size := Nat.mul_le_mul_left _ hj

theorem gatherRow_inj {height nbProc i l i' l' : Nat}
    (hl : l < locheight height nbProc) (hl' : l' < locheight height nbProc)
    (h : gatherRow height nbProc i l = gatherRow height nbProc i' l') :
    i = i' ∧ l = l' := by
  unfold gatherRow at h
  have hq : 0 < locheight height nbProc := by omega
  have h1 : (i * locheight height nbProc + l) / locheight height nbProc = i := by
    rw [Nat.add_comm, Nat.add_mul_div_right _ _ hq, Nat.div_eq_of_lt hl]; simp
  have h2 : (i' * locheight height nbProc + l') / locheight height nbProc = i' := by
    rw [Nat.add_comm, Nat.add_mul_div_right _ _ hq, Nat.div_eq_of_lt hl']; simp
  have hii : i = i' := by rw [← h1, ← h2, h]
  subst hii
  exact ⟨rfl, by omega⟩

theorem ownedRow_inj {size r jj r' jj' : Nat} (hr : r < size) (hr' : r' < size)
    (h : ownedRow size r jj = ownedRow size r' jj') : r = r' ∧ jj = jj' := by
  unfold ownedRow at h
  have h1 : (r + size * jj) % size = r := by
    rw [Nat.add_mul_mod_self_left, Nat.mod_eq_of_lt hr]
  have h2 : (r' + size * jj') % size = r' := by
    rw [Nat.add_mul_mod_self_left, Nat.mod_eq_of_lt hr']
  have hrr : r = r' := by rw [← h1, ← h2, h]
  subst hrr
  have hs : 0 < size := by omega
  have : size * jj = size * jj' := by omega
  exact ⟨rfl, Nat.eq_of_mul_eq_mul_left hs this⟩

theorem mem_contiguousRows {height nbProc g : Nat} :
    g ∈ contiguousRows height nbProc ↔ g < nbProc * locheight height nbProc := by
  unfold contiguousRows
  simp only [List.mem_flatMap, List.mem_map, List.mem_range]
  constructor
  · rintro ⟨i, hi, l, hl, rfl⟩
    exact gatherRow_lt hi hl
  · intro hg
    have hq : 0 < locheight height nbProc := by
      rcases Nat.eq_zero_or_pos (locheight height nbProc) with h | h
      · rw [h] at hg; simp at hg
      · exact h
    refine ⟨g / locheight height nbProc, ?_, g % locheight height nbProc,
      Nat.mod_lt _ hq, ?_⟩
    · exact Nat.div_lt_of_lt_mul (by rwa [Nat.mul_comm] at hg)
    · unfold gatherRow
      exact Nat.div_add_mod' g _

theorem mem_interleavedRows {height size g : Nat} :
    g ∈ interleavedRows height size ↔ g < size * lsize height size := by
  unfold interleavedRows
  simp only [List.mem_flatMap, List.mem_map, List.mem_range]
  constructor
  · rintro ⟨r, hr, jj, hj, rfl⟩
    exact ownedRow_lt hr hj
  · intro hg
    have hs : 0 < size := by
      rcases Nat.eq_zero_or_pos size with h | h
      · rw [h] at hg; simp at hg
      · exact h
    refine ⟨g % size, Nat.mod_lt _ hs, g / size, ?_, ?_⟩
    · exact Nat.div_lt_of_lt_mul hg
    · unfold ownedRow
      exact Nat.mod_add_div g size

theorem nodup_contiguousRows (height nbProc : Nat) : (contiguousRows height nbProc).Nodup := by
  unfold contiguousRows
  rw [List.nodup_flatMap]
  constructor
  · intro i _
    refine List.Nodup.map_on ?_ (List.nodup_range _)
    intro l hl l' hl' h
    exact (gatherRow_inj (List.mem_range.1 hl) (List.mem_range.1 hl') h).2
  · refine List.Pairwise.imp_of_mem ?_ (List.nodup_range nbProc)
    intro i i' _ _ hne
    simp only [Function.onFun]
    rw [List.disjoint_left]
    intro g hg hg'
    simp only [List.mem_map, List.mem_range] at hg hg'
    obtain ⟨l, hl, rfl⟩ := hg
    obtain ⟨l', hl', h⟩ := hg'
    exact hne (gatherRow_inj hl hl' h.symm).1

theorem nodup_interleavedRows (height size : Nat) : (interleavedRows height size).Nodup := by
  unfold interleavedRows
  rw [List.nodup_flatMap]
  constructor
  · intro r hr
    refine List.Nodup.map_on ?_ (List.nodup_range _)
    intro jj _ jj' _ h
    exact (ownedRow_inj (List.mem_range.1 hr) (List.mem_range.1 hr) h).2
  · have hp : ∀ l : List Nat, (∀ x ∈ l, x < size) → l.Nodup →
        List.Pairwise (Function.onFun List.Disjoint fun rank =>
          (List.range (lsize height size)).map fun jj => ownedRow size rank jj) l := by
      intro l hl hn
      refine List.Pairwise.imp_of_mem ?_ hn
      intro r r' hr hr' hne
      simp only [Function.onFun]
      rw [List.disjoint_left]
      intro g hg hg'
      simp only [List.mem_map, List.mem_range] at hg hg'
      obtain ⟨jj, _, rfl⟩ := hg
      obtain ⟨jj', _, h⟩ := hg'
      exact hne (ownedRow_inj (hl r hr) (hl r' hr') h.symm).1
    exact hp _ (fun x hx => List.mem_range.1 hx) (List.nodup_range size)

theorem contiguousRows_perm (height nbProc : Nat) :
    (contiguousRows height nbProc).Perm (List.range (nbProc * locheight height nbProc)) := by
  rw [List.perm_ext_iff_of_nodup (nodup_contiguousRows _ _) (List.nodup_range _)]
  intro g
  rw [mem_contiguousRows, List.mem_range]

theorem interleavedRows_perm (height size : Nat) :
    (interleavedRows height size).Perm (List.range (size * lsize height size)) := by
  rw [List.perm_ext_iff_of_nodup (nodup_interleavedRows _ _) (List.nodup_range _)]
  intro g
  rw [mem_interleavedRows, List.mem_range]

theorem range_perm_range {a b : Nat} (h : (List.range a).Perm (List.range b)) : a = b := by
  have := h.length_eq
  simpa using this

/-! ## Coverage of the raster rows -/

/-- C1 (as stated, refuted): with `H = 10` rows and `P = 3` workers the rows
assigned under the contiguous scheme of `mpi_omp.c` and under the interleaved
scheme of `isend.c` and `pack.c` are not `{0,...,9}` once each: row 9 is
assigned to nobody. -/
theorem coverage_fails_10_3 :
    ¬ (contiguousRows 10 3).Perm (List.range 10) ∧
    ¬ (interleavedRows 10 3).Perm (List.range 10) ∧
    9 ∉ contiguousRows 10 3 ∧ 9 ∉ interleavedRows 10 3 := by
  decide

/-- C1 (amended): for every worker count `P >= 1` and every height `H` that
`P` divides, the rows assigned to the `P` workers are `{0,...,H-1}`, each row
exactly once, under the contiguous scheme and under the interleaved scheme. -/
theorem coverage_of_dvd (H P : Nat) (_hP : 1 ≤ P) (hd : P ∣ H) :
    (contiguousRows H P).Perm (List.range H) ∧
    (interleavedRows H P).Perm (List.range H) := by
  have hq : P * (H / P) = H := Nat.mul_div_cancel' hd
  constructor
  · have h := contiguousRows_perm H P
    unfold locheight at h
    rwa [hq] at h
  · have h := interleavedRows_perm H P
    unfold lsize at h
    rwa [hq] at h

/-- Witness of `coverage_of_dvd` at `H = 12`, `P = 3`. -/
theorem coverage_of_dvd_witness :
    1 ≤ 3 ∧ 3 ∣ 12 ∧ (contiguousRows 12 3).Perm (List.range 12) ∧
      (interleavedRows 12 3).Perm (List.range 12) :=
  ⟨by decide, by decide, coverage_of_dvd 12 3 (by decide) (by decide)⟩

/-- The row maps: for every `P >= 1` and `H`, with `q = H / P`, the map from a rank
`i < P` and a local index `j < q` to a raster row, `i*q + j` in `mpi_omp.c`
and `i + P*j` in `isend.c` and `pack.c` (where the coordinator addresses row
`j*P + i`, the same row), is a bijection onto `{0,...,P*q - 1}`; no row from
`P*q` on is assigned; and the rows `{0,...,H-1}` are covered exactly once if
and only if `P` divides `H`. -/
theorem remainder_rows_dropped (H P : Nat) (_hP : 1 ≤ P) :
    (∀ i j, i < P → j < H / P → gatherRow H P i j < P * (H / P)) ∧
    (∀ g, g < P * (H / P) →
      ∃! p : Nat × Nat, p.1 < P ∧ p.2 < H / P ∧ gatherRow H P p.1 p.2 = g) ∧
    (∀ i j, i < P → j < H / P →
      ownedRow P i j < P * (H / P) ∧ destRow P j i = ownedRow P i j) ∧
    (∀ g, g < P * (H / P) →
      ∃! p : Nat × Nat, p.1 < P ∧ p.2 < H / P ∧ ownedRow P p.1 p.2 = g) ∧
    (∀ g, P * (H / P) ≤ g → g ∉ contiguousRows H P ∧ g ∉ interleavedRows H P) ∧
    ((contiguousRows H P).Perm (List.range H) ↔ P ∣ H) ∧
    ((interleavedRows H P).Perm (List.range H) ↔ P ∣ H) := by
  have hiff : ∀ l : List Nat, l.Perm (List.range (P * (H / P))) →
      (l.Perm (List.range H) ↔ P ∣ H) := by
    intro l hl
    constructor
    · intro h
      have := range_perm_range (hl.symm.trans h)
      exact Nat.mul_div_eq_iff_dvd.1 this
    · intro hd
      rwa [Nat.mul_div_cancel' hd] at hl
  refine ⟨?_, ?_, ?_, ?_, ?_, ?_, ?_⟩
  · intro i j hi hj
    exact gatherRow_lt hi hj
  · intro g hg
    have hmem : g ∈ contiguousRows H P := mem_contiguousRows.2 hg
    unfold contiguousRows at hmem
    simp only [List.mem_flatMap, List.mem_map, List.mem_range] at hmem
    obtain ⟨i, hi, l, hl, rfl⟩ := hmem
    refine ⟨(i, l), ⟨hi, hl, rfl⟩, ?_⟩
    rintro ⟨i', l'⟩ ⟨_, hl', h⟩
    obtain ⟨h1, h2⟩ := gatherRow_inj hl' hl h
    exact Prod.ext h1 h2
  · intro i j hi hj
    exact ⟨ownedRow_lt hi hj, destRow_eq_ownedRow P j i⟩
  · intro g hg
    have hmem : g ∈ interleavedRows H P := mem_interleavedRows.2 hg
    unfold interleavedRows at hmem
    simp only [List.mem_flatMap, List.mem_map, List.mem_range] at hmem
    obtain ⟨i, hi, l, hl, rfl⟩ := hmem
    refine ⟨(i, l), ⟨hi, hl, rfl⟩, ?_⟩
    rintro ⟨i', l'⟩ ⟨hi', _, h⟩
    obtain ⟨h1, h2⟩ := ownedRow_inj hi' hi h
    exact Prod.ext h1 h2
  · intro g hg
    constructor
    · rw [mem_contiguousRows]
      unfold locheight
      omega
    · rw [mem_interleavedRows]
      unfold lsize
      omega
  · exact hiff _ (contiguousRows_perm H P)
  · exact hiff _ (interleavedRows_perm H P)

/-- Witness of `remainder_rows_dropped` at `H = 10`, `P = 3`: rows 0 to 8 are
assigned once each, row 9 is dropped. -/
theorem remainder_rows_dropped_witness :
    1 ≤ 3 ∧
    ((∀ i j, i < 3 → j < 10 / 3 → gatherRow 10 3 i j < 3 * (10 / 3)) ∧
    (∀ g, g < 3 * (10 / 3) →
      ∃! p : Nat × Nat, p.1 < 3 ∧ p.2 < 10 / 3 ∧ gatherRow 10 3 p.1 p.2 = g) ∧
    (∀ i j, i < 3 → j < 10 / 3 →
      ownedRow 3 i j < 3 * (10 / 3) ∧ destRow 3 j i = ownedRow 3 i j) ∧
    (∀ g, g < 3 * (10 / 3) →
      ∃! p : Nat × Nat, p.1 < 3 ∧ p.2 < 10 / 3 ∧ ownedRow 3 p.1 p.2 = g) ∧
    (∀ g, 3 * (10 / 3) ≤ g → g ∉ contiguousRows 10 3 ∧ g ∉ interleavedRows 10 3) ∧
    ((contiguousRows 10 3).Perm (List.range 10) ↔ 3 ∣ 10) ∧
    ((interleavedRows 10 3).Perm (List.range 10) ↔ 3 ∣ 10)) :=
  ⟨by decide, remainder_rows_dropped 10 3 (by decide)⟩

/-! ## The pixel kernel -/

section Kernel

variable {α : Type} [Add α] [Sub α] [Mul α] [OfNat α 2] [OfNat α 4] [LT α]
  [DecidableRel (LT.lt : α → α → Prop)]

theorem escape_break (a b : α) (k i : Nat) (x y : α)
    (h : diverged (orbitStep a b (x, y))) : escape a b (k + 1) i x y = i := by
  unfold diverged orbitStep at h
  simp only [escape]
  rw [if_pos h]

theorem escape_continue (a b : α) (k i : Nat) (x y : α)
    (h : ¬ diverged (orbitStep a b (x, y))) :
    escape a b (k + 1) i x y
      = escape a b k (i + 1) (orbitStep a b (x, y)).1 (orbitStep a b (x, y)).2 := by
  unfold diverged orbitStep at h
  simp only [escape]
  rw [if_neg h]
  rfl

theorem escape_bounds (a b : α) (k i : Nat) (x y : α) :
    i ≤ escape a b k i x y ∧ escape a b k i x y ≤ i + k := by
  induction k generalizing i x y with
  | zero => simp [escape]
  | succ k ih =>
    by_cases h : diverged (orbitStep a b (x, y))
    · rw [escape_break a b k i x y h]
      omega
    · rw [escape_continue a b k i x y h]
      have := ih (i + 1) (orbitStep a b (x, y)).1 (orbitStep a b (x, y)).2
      omega

theorem escape_eq_iff (a b : α) (k i : Nat) (x y : α) :
    escape a b k i x y = i + k ↔ ∀ j, j < k → ¬ diverged (orbit a b (x, y) (j + 1)) := by
  induction k generalizing i x y with
  | zero => simp [escape]
  | succ k ih =>
    by_cases h : diverged (orbitStep a b (x, y))
    · rw [escape_break a b k i x y h]
      constructor
      · intro he
        omega
      · intro hall
        exact absurd h (hall 0 (Nat.succ_pos k))
    · rw [escape_continue a b k i x y h]
      have hih := ih (i + 1) (orbitStep a b (x, y)).1 (orbitStep a b (x, y)).2
      have he : i + 1 + k = i + (k + 1) := by omega
      rw [he] at hih
      rw [hih]
      constructor
      · intro hall j hj
        cases j with
        | zero => exact h
        | succ j => exact hall j (by omega)
      · intro hall j hj
        exact hall (j + 1) (by omega)

end Kernel

theorem iterations_le (a b : ℚ) (nb_iter : Nat) : iterations a b nb_iter ≤ nb_iter := by
  have := (escape_bounds a b nb_iter 0 0 0).2
  unfold iterations
  omega

theorem iterations_eq_iff (a b : ℚ) (nb_iter : Nat) :
    iterations a b nb_iter = nb_iter ↔
      ∀ k, 1 ≤ k → k ≤ nb_iter → ¬ diverged (orbit a b ((0 : ℚ), (0 : ℚ)) k) := by
  have h := escape_eq_iff a b nb_iter 0 0 0
  unfold iterations
  rw [Nat.zero_add] at h
  rw [h]
  constructor
  · intro hall k hk1 hk
    obtain ⟨j, rfl⟩ : ∃ j, k = j + 1 := ⟨k - 1, by omega⟩
    exact hall j (by omega)
  · intro hall j hj
    exact hall (j + 1) (by omega) (by omega)

theorem pixelByte_eq (i nb_iter : Nat) : pixelByte i nb_iter = 255 * i / nb_iter := by
  unfold pixelByte intensity
  have h : (i : ℚ) / nb_iter * 255 = ((255 * i : ℕ) : ℚ) / (nb_iter : ℚ) := by
    push_cast
    ring
  rw [h, Nat.floor_div_eq_div]

theorem intensity_range {i n : Nat} (hn : 1 ≤ n) (hi : i ≤ n) :
    0 ≤ intensity i n ∧ intensity i n ≤ 255 := by
  unfold intensity
  have hn0 : (0 : ℚ) < n := by exact_mod_cast hn
  have hin : (i : ℚ) ≤ n := by exact_mod_cast hi
  have hi0 : (0 : ℚ) ≤ i := by positivity
  constructor
  · positivity
  · have : (i : ℚ) / n ≤ 1 := (div_le_one hn0).2 hin
    nlinarith

theorem intensity_eq_255_iff {i n : Nat} (hn : 1 ≤ n) : intensity i n = 255 ↔ i = n := by
  unfold intensity
  have hn0 : (n : ℚ) ≠ 0 := by
    have : (0 : ℚ) < n := by exact_mod_cast hn
    exact ne_of_gt this
  constructor
  · intro h
    have h1 : (i : ℚ) / n = 1 := by linarith
    rw [div_eq_one_iff_eq hn0] at h1
    exact_mod_cast h1
  · rintro rfl
    rw [div_self hn0]
    norm_num

theorem pixelByte_eq_255_iff {i n : Nat} (hn : 1 ≤ n) (hi : i ≤ n) :
    pixelByte i n = 255 ↔ i = n := by
  rw [pixelByte_eq]
  constructor
  · intro h
    by_contra hne
    have hlt : i < n := by omega
    have : 255 * i / n < 255 := by
      rw [Nat.div_lt_iff_lt_mul (by omega)]
      nlinarith
    omega
  · rintro rfl
    exact Nat.mul_div_cancel _ (by omega)

theorem pixelByte_le {i n : Nat} (hn : 1 ≤ n) (hi : i ≤ n) : pixelByte i n ≤ 255 := by
  rw [pixelByte_eq]
  have : 255 * i / n < 256 := by
    rw [Nat.div_lt_iff_lt_mul (by omega)]
    nlinarith
  omega

/-- C9: for every iteration budget `n >= 1`, every bounds and every cell `(l, c)`
of an image of any dimensions, the escape loop of `Compute` ends with a count
`i` with `0 <= i <= n`; the value `i / n * 255` lies in `[0, 255]` and so does
the stored pixel; and the value (and the pixel) is 255 exactly when `i = n`,
which is exactly when no iterate `1,...,n` passed the divergence test. -/
theorem compute_range (n : Nat) (hn : 1 ≤ n) (nb_rows nb_columns : Nat)
    (x_min x_max y_min y_max : ℚ) (l c : Nat) :
    0 ≤ iterations (computePoint nb_rows nb_columns x_min x_max y_min y_max l c).1
        (computePoint nb_rows nb_columns x_min x_max y_min y_max l c).2 n ∧
    iterations (computePoint nb_rows nb_columns x_min x_max y_min y_max l c).1
        (computePoint nb_rows nb_columns x_min x_max y_min y_max l c).2 n ≤ n ∧
    0 ≤ intensity (iterations (computePoint nb_rows nb_columns x_min x_max y_min y_max l c).1
        (computePoint nb_rows nb_columns x_min x_max y_min y_max l c).2 n) n ∧
    intensity (iterations (computePoint nb_rows nb_columns x_min x_max y_min y_max l c).1
        (computePoint nb_rows nb_columns x_min x_max y_min y_max l c).2 n) n ≤ 255 ∧
    computePixel nb_rows nb_columns n x_min x_max y_min y_max l c ≤ 255 ∧
    (intensity (iterations (computePoint nb_rows nb_columns x_min x_max y_min y_max l c).1
        (computePoint nb_rows nb_columns x_min x_max y_min y_max l c).2 n) n = 255 ↔
      iterations (computePoint nb_rows nb_columns x_min x_max y_min y_max l c).1
        (computePoint nb_rows nb_columns x_min x_max y_min y_max l c).2 n = n) ∧
    (computePixel nb_rows nb_columns n x_min x_max y_min y_max l c = 255 ↔
      iterations (computePoint nb_rows nb_columns x_min x_max y_min y_max l c).1
        (computePoint nb_rows nb_columns x_min x_max y_min y_max l c).2 n = n) ∧
    (iterations (computePoint nb_rows nb_columns x_min x_max y_min y_max l c).1
        (computePoint nb_rows nb_columns x_min x_max y_min y_max l c).2 n = n ↔
      ∀ k, 1 ≤ k → k ≤ n →
        ¬ diverged (orbit (computePoint nb_rows nb_columns x_min x_max y_min y_max l c).1
          (computePoint nb_rows nb_columns x_min x_max y_min y_max l c).2
          ((0 : ℚ), (0 : ℚ)) k)) := by
  have hle := iterations_le (computePoint nb_rows nb_columns x_min x_max y_min y_max l c).1
    (computePoint nb_rows nb_columns x_min x_max y_min y_max l c).2 n
  refine ⟨Nat.zero_le _, hle, (intensity_range hn hle).1, (intensity_range hn hle).2,
    pixelByte_le hn hle, intensity_eq_255_iff hn, pixelByte_eq_255_iff hn hle,
    iterations_eq_iff _ _ n⟩

/-- Witness of `compute_range` at the budget `n = 100`, for the cell of row 1,
column 2 of an image of 4 by 4 cells with the default bounds. -/
theorem compute_range_witness :
    1 ≤ 100 ∧
    (0 ≤ iterations (computePoint 4 4 (-89/50) (39/50) (-961/1000) (961/1000) 1 2).1
        (computePoint 4 4 (-89/50) (39/50) (-961/1000) (961/1000) 1 2).2 100 ∧
    iterations (computePoint 4 4 (-89/50) (39/50) (-961/1000) (961/1000) 1 2).1
        (computePoint 4 4 (-89/50) (39/50) (-961/1000) (961/1000) 1 2).2 100 ≤ 100 ∧
    0 ≤ intensity (iterations (computePoint 4 4 (-89/50) (39/50) (-961/1000) (961/1000) 1 2).1
        (computePoint 4 4 (-89/50) (39/50) (-961/1000) (961/1000) 1 2).2 100) 100 ∧
    intensity (iterations (computePoint 4 4 (-89/50) (39/50) (-961/1000) (961/1000) 1 2).1
        (computePoint 4 4 (-89/50) (39/50) (-961/1000) (961/1000) 1 2).2 100) 100 ≤ 255 ∧
    computePixel 4 4 100 (-89/50) (39/50) (-961/1000) (961/1000) 1 2 ≤ 255 ∧
    (intensity (iterations (computePoint 4 4 (-89/50) (39/50) (-961/1000) (961/1000) 1 2).1
        (computePoint 4 4 (-89/50) (39/50) (-961/1000) (961/1000) 1 2).2 100) 100 = 255 ↔
      iterations (computePoint 4 4 (-89/50) (39/50) (-961/1000) (961/1000) 1 2).1
        (computePoint 4 4 (-89/50) (39/50) (-961/1000) (961/1000) 1 2).2 100 = 100) ∧
    (computePixel 4 4 100 (-89/50) (39/50) (-961/1000) (961/1000) 1 2 = 255 ↔
      iterations (computePoint 4 4 (-89/50) (39/50) (-961/1000) (961/1000) 1 2).1
        (computePoint 4 4 (-89/50) (39/50) (-961/1000) (961/1000) 1 2).2 100 = 100) ∧
    (iterations (computePoint 4 4 (-89/50) (39/50) (-961/1000) (961/1000) 1 2).1
        (computePoint 4 4 (-89/50) (39/50) (-961/1000) (961/1000) 1 2).2 100 = 100 ↔
      ∀ k, 1 ≤ k → k ≤ 100 →
        ¬ diverged (orbit (computePoint 4 4 (-89/50) (39/50) (-961/1000) (961/1000) 1 2).1
          (computePoint 4 4 (-89/50) (39/50) (-961/1000) (961/1000) 1 2).2
          ((0 : ℚ), (0 : ℚ)) k))) :=
  ⟨by decide, compute_range 100 (by decide) 4 4 (-89/50) (39/50) (-961/1000) (961/1000) 1 2⟩

theorem computePoint_corner :
    computePoint 1 1 2 3 (-1) 0 0 0 = ((2 : ℚ), (0 : ℚ)) := by
  unfold computePoint
  norm_num

theorem iterations_two_zero : iterations 2 0 100 = 1 := by
  unfold iterations
  have h1 : ¬ diverged (orbitStep (2 : ℚ) 0 ((0 : ℚ), (0 : ℚ))) := by
    unfold diverged orbitStep
    norm_num
  have h2 : diverged (orbitStep (2 : ℚ) 0
      ((orbitStep (2 : ℚ) 0 ((0 : ℚ), (0 : ℚ))).1,
        (orbitStep (2 : ℚ) 0 ((0 : ℚ), (0 : ℚ))).2)) := by
    unfold diverged orbitStep
    norm_num
  rw [show (100 : Nat) = 99 + 1 from rfl, escape_continue (2 : ℚ) 0 99 0 0 0 h1,
    show (99 : Nat) = 98 + 1 from rfl, escape_break (2 : ℚ) 0 98 (0 + 1) _ _ h2]

theorem pixelByte_floor (i n : Nat) : (pixelByte i n : ℤ) = ⌊(255 : ℚ) * i / n⌋ := by
  unfold pixelByte intensity
  have h0 : (0 : ℚ) ≤ (i : ℚ) / n * 255 := by positivity
  rw [Int.natCast_floor_eq_floor h0]
  congr 1
  ring

/-- C8 (as stated, refuted): with the default budget `nb_iter = 100`, on the
image of one cell with bounds `x_min = 2`, `x_max = 3`, `y_min = -1`,
`y_max = 0` the escape loop completes `i = 1` iteration and `Compute` stores
the pixel 2, the value 2.55 without its fractional part, whereas
`round(255 * 1 / 100)` is 3. -/
theorem rounding_fails_1_100 :
    iterations (computePoint 1 1 2 3 (-1) 0 0 0).1 (computePoint 1 1 2 3 (-1) 0 0 0).2 100 = 1 ∧
    computePixel 1 1 100 2 3 (-1) 0 0 0 = 2 ∧
    specIntensity 1 100 = 3 ∧
    (computePixel 1 1 100 2 3 (-1) 0 0 0 : ℤ) ≠ specIntensity
      (iterations (computePoint 1 1 2 3 (-1) 0 0 0).1 (computePoint 1 1 2 3 (-1) 0 0 0).2 100)
      100 := by
  have hp : computePixel 1 1 100 2 3 (-1) 0 0 0 = 2 := by
    unfold computePixel
    rw [computePoint_corner, iterations_two_zero, pixelByte_eq]
  have hs : specIntensity 1 100 = 3 := by
    unfold specIntensity
    rw [round_eq, Int.floor_eq_iff]
    norm_num
  refine ⟨?_, hp, hs, ?_⟩
  · rw [computePoint_corner, iterations_two_zero]
  · rw [hp, computePoint_corner, iterations_two_zero, hs]
    decide

/-- C8 (amended): for every iteration budget `n >= 1` and every count
`0 <= i <= n`, the pixel stored for `(double) i / nb_iter * 255` is, in exact
arithmetic, `floor(255 * i / n)`: the fractional part is discarded, so the
pixel is `round(255 * i / n)` or one below it. -/
theorem pixel_is_floor (n i : Nat) (_hn : 1 ≤ n) (_hi : i ≤ n) :
    pixelByte i n = 255 * i / n ∧
    (pixelByte i n : ℤ) = ⌊(255 : ℚ) * i / n⌋ ∧
    (specIntensity i n = pixelByte i n ∨ specIntensity i n = pixelByte i n + 1) := by
  refine ⟨pixelByte_eq i n, pixelByte_floor i n, ?_⟩
  rw [pixelByte_floor]
  unfold specIntensity
  rw [round_eq]
  have h1 : ⌊(255 : ℚ) * i / n⌋ ≤ ⌊(255 : ℚ) * i / n + 1 / 2⌋ :=
    Int.floor_le_floor (by linarith)
  have h2 : ⌊(255 : ℚ) * i / n + 1 / 2⌋ ≤ ⌊(255 : ℚ) * i / n + 1⌋ :=
    Int.floor_le_floor (by linarith)
  rw [Int.floor_add_one] at h2
  omega

/-- Witness of `pixel_is_floor` at `n = 100`, `i = 1`. -/
theorem pixel_is_floor_witness :
    1 ≤ 100 ∧ 1 ≤ 100 ∧ pixelByte 1 100 = 255 * 1 / 100 ∧
    (pixelByte 1 100 : ℤ) = ⌊(255 : ℚ) * (1 : Nat) / (100 : Nat)⌋ ∧
    (specIntensity 1 100 = pixelByte 1 100 ∨ specIntensity 1 100 = pixelByte 1 100 + 1) :=
  ⟨by decide, by decide, pixel_is_floor 100 1 (by decide) (by decide)⟩

/-! ## The points handed to the kernel -/

theorem arrLoop_getD (d : ℚ) (n : Nat) (m : ℚ) (k : Nat) (hk : k < n) :
    (arrLoop d n m).getD k 0 = m + k * d := by
  induction n generalizing m k with
  | zero => omega
  | succ n ih =>
    cases k with
    | zero => simp [arrLoop]
    | succ k =>
      simp only [arrLoop, List.getD_cons_succ]
      rw [ih (m + d) k (by omega)]
      push_cast
      ring

theorem arr_getD (nbProc : Nat) (y_min y_max : ℚ) (k : Nat) (hk : k ≤ nbProc) :
    (arr nbProc y_min y_max).getD k 0 = y_min + k * ((y_max - y_min) / nbProc) := by
  unfold arr
  exact arrLoop_getD _ _ _ _ (by omega)

theorem contiguousPoint_eq (W H P : Nat) (x_min x_max y_min y_max : ℚ) (hH : 1 ≤ H)
    (hP : 1 ≤ P) (hd : P ∣ H) (i l c : Nat) (hi : i < P) :
    contiguousPoint W H P x_min x_max y_min y_max i l c
      = specPoint W H x_min x_max y_min y_max (gatherRow H P i l) c := by
  have hq : P * (H / P) = H := Nat.mul_div_cancel' hd
  have hqpos : 0 < H / P := by
    rcases Nat.eq_zero_or_pos (H / P) with h | h
    · rw [h] at hq; omega
    · exact h
  have hPq : (P : ℚ) ≠ 0 := by
    have : (0 : ℚ) < P := by exact_mod_cast hP
    exact ne_of_gt this
  have hlq : ((H / P : ℕ) : ℚ) ≠ 0 := by
    have : (0 : ℚ) < ((H / P : ℕ) : ℚ) := by exact_mod_cast hqpos
    exact ne_of_gt this
  have hHq : (H : ℚ) = (P : ℚ) * ((H / P : ℕ) : ℚ) := by exact_mod_cast hq.symm
  unfold contiguousPoint specPoint computePoint gatherRow locheight
  rw [arr_getD P y_min y_max (P - i - 1) (by omega), arr_getD P y_min y_max (P - i) (by omega)]
  have c1 : ((P - i - 1 : ℕ) : ℚ) = (P : ℚ) - i - 1 := by
    rw [Nat.cast_sub (by omega), Nat.cast_sub (by omega)]
    simp
  have c2 : ((P - i : ℕ) : ℚ) = (P : ℚ) - i := Nat.cast_sub (by omega)
  rw [c1, c2, hHq]
  refine Prod.ext ?_ ?_
  · simp only
    ring
  · simp only
    push_cast
    field_simp
    ring

theorem interleavedPoint_eq (W H P : Nat) (x_min x_max y_min y_max : ℚ) (r jj c : Nat)
    (h : ownedRow P r jj ≤ INT_MAX) :
    interleavedPoint W H P x_min x_max y_min y_max r jj c
      = specPoint W H x_min x_max y_min y_max (ownedRow P r jj) c := by
  unfold interleavedPoint specPoint computePoint loc_ymin loc_ymax
  rw [ownedRowInt_eq P r jj h, Int.cast_natCast]
  refine Prod.ext ?_ ?_
  · simp only
    ring
  · simp only
    push_cast
    ring

theorem gatherProgram_cell (W H P n : Nat) (x_min x_max y_min y_max : ℚ) (behind im : Mem)
    (_hW : 1 ≤ W) (hH : 1 ≤ H) (hP : 1 ≤ P) (hd : P ∣ H) (g c : Nat) (hg : g < H)
    (hc : c < W) :
    gatherProgram W H P n x_min x_max y_min y_max behind im (g * W + c)
      = pixelAt (specPoint W H x_min x_max y_min y_max g c) n := by
  have hq : P * locheight H P = H := Nat.mul_div_cancel' hd
  have hl : 0 < locheight H P := by
    rcases Nat.eq_zero_or_pos (locheight H P) with h | h
    · rw [h] at hq; omega
    · exact h
  have hWpos : 0 < W := by omega
  have hi : g / locheight H P < P :=
    Nat.div_lt_of_lt_mul (by rw [Nat.mul_comm, hq]; exact hg)
  have hrow : gatherRow H P (g / locheight H P) (g % locheight H P) = g := by
    unfold gatherRow
    exact Nat.div_add_mod' g _
  have hlt : g * W + c < P * (W * locheight H P) := by
    calc g * W + c < g * W + W := by omega
      _ = (g + 1) * W := by ring
      _ ≤ H * W := Nat.mul_le_mul_right _ hg
      _ = P * locheight H P * W := by rw [hq]
      _ = P * (W * locheight H P) := by ring
  have hgW : (g * W + c) / W = g := by
    rw [Nat.add_comm, Nat.add_mul_div_right _ _ hWpos, Nat.div_eq_of_lt hc, Nat.zero_add]
  have hcW : (g * W + c) % W = c := by
    rw [Nat.add_comm, Nat.add_mul_mod_self_right, Nat.mod_eq_of_lt hc]
  have hdiv : (g * W + c) / (W * locheight H P) = g / locheight H P := by
    rw [← Nat.div_div_eq_div_mul, hgW]
  have hmod : (g * W + c) % (W * locheight H P) = g % locheight H P * W + c := by
    rw [Nat.mod_mul, hgW, hcW]
    ring
  have hk : g % locheight H P * W + c < W * locheight H P := by
    have h1 : g % locheight H P < locheight H P := Nat.mod_lt _ hl
    calc g % locheight H P * W + c < g % locheight H P * W + W := by omega
      _ = (g % locheight H P + 1) * W := by ring
      _ ≤ locheight H P * W := Nat.mul_le_mul_right _ h1
      _ = W * locheight H P := Nat.mul_comm _ _
  have hkW : (g % locheight H P * W + c) / W = g % locheight H P := by
    rw [Nat.add_comm, Nat.add_mul_div_right _ _ hWpos, Nat.div_eq_of_lt hc, Nat.zero_add]
  have hkc : (g % locheight H P * W + c) % W = c := by
    rw [Nat.add_comm, Nat.add_mul_mod_self_right, Nat.mod_eq_of_lt hc]
  have hpt := contiguousPoint_eq W H P x_min x_max y_min y_max hH hP hd
    (g / locheight H P) (g % locheight H P) c hi
  rw [hrow] at hpt
  unfold gatherProgram MPI_Gather
  rw [if_pos hlt, hdiv, hmod]
  unfold contiguousTile
  rw [if_pos hk, hkW, hkc, ← hpt]
  rfl

/-- C3 (amended): in exact arithmetic, for every width `W >= 1` and height
`H >= 1` with `W*H <= INT_MAX`, bounds with `x_min < x_max` and
`y_min < y_max`, and worker counts `P1 >= 1` and `P2 >= 1` dividing `H`, the
pixel for raster row `g < H` and column `c < W` is computed at
`a = x_min + c*(x_max - x_min)/W`, `b = y_max - g*(y_max - y_min)/H` by
`mpi_omp.c` run on `P1` ranks (rank `g / (H/P1)`, local row `g mod (H/P1)`,
stored at the `int` index `W*l + c` of the tile and gathered to offset
`g*W + c`) and by `isend.c` and `pack.c` run on `P2` ranks (rank `g mod P2`,
round `g / P2`, column `c` of the tile, addressed by the `int` offset `l` to
`g*W + c`), hence at the same point whatever the worker count and the
program; and the raster assembled by `mpi_omp.c` holds at `(g, c)` the pixel
computed at that point, whatever `P1`. -/
theorem partition_invariant_points (W H P1 P2 n : Nat) (x_min x_max y_min y_max : ℚ)
    (behind1 im : Mem) (behind2 : Nat → Nat → Nat)
    (hW : 1 ≤ W) (hH : 1 ≤ H) (hfit : W * H ≤ INT_MAX)
    (_hx : x_min < x_max) (_hy : y_min < y_max)
    (hP1 : 1 ≤ P1) (hP2 : 1 ≤ P2) (hd1 : P1 ∣ H) (hd2 : P2 ∣ H)
    (g c : Nat) (hg : g < H) (hc : c < W) :
    (g / locheight H P1 < P1 ∧ g % locheight H P1 < locheight H P1 ∧
      gatherRow H P1 (g / locheight H P1) (g % locheight H P1) = g ∧
      tileIndexInt W (g % locheight H P1) c
        = ((tileIndex W (g % locheight H P1) c : Nat) : Int) ∧
      gatherCountInt W H P1 = ((W * locheight H P1 : Nat) : Int) ∧
      gatherOffset W H P1 (g / locheight H P1) (tileIndex W (g % locheight H P1) c)
        = g * W + c ∧
      contiguousPoint W H P1 x_min x_max y_min y_max
          (g / locheight H P1) (g % locheight H P1) c
        = specPoint W H x_min x_max y_min y_max g c ∧
      gatherProgram W H P1 n x_min x_max y_min y_max behind1 im (g * W + c)
        = pixelAt (specPoint W H x_min x_max y_min y_max g c) n) ∧
    (g % P2 < P2 ∧ g / P2 < lsize H P2 ∧
      ownedRow P2 (g % P2) (g / P2) = g ∧ ownedRowInt P2 (g % P2) (g / P2) = (g : Int) ∧
      destRow P2 (g / P2) (g % P2) = g ∧
      recvOffsetInt W P2 (g / P2) (g % P2)
        = ((recvOffset W P2 (g / P2) (g % P2) : Nat) : Int) ∧
      recvOffset W P2 (g / P2) (g % P2) + c = g * W + c ∧
      interleavedPoint W H P2 x_min x_max y_min y_max (g % P2) (g / P2) c
        = specPoint W H x_min x_max y_min y_max g c ∧
      interleavedTile W H P2 n x_min x_max y_min y_max behind2 (g % P2) (g / P2) c
        = pixelAt (specPoint W H x_min x_max y_min y_max g c) n) ∧
    contiguousPoint W H P1 x_min x_max y_min y_max
        (g / locheight H P1) (g % locheight H P1) c
      = interleavedPoint W H P2 x_min x_max y_min y_max (g % P2) (g / P2) c := by
  have hq1 : P1 * locheight H P1 = H := Nat.mul_div_cancel' hd1
  have hq2 : P2 * lsize H P2 = H := Nat.mul_div_cancel' hd2
  have hl1 : 0 < locheight H P1 := by
    rcases Nat.eq_zero_or_pos (locheight H P1) with h | h
    · rw [h] at hq1; omega
    · exact h
  have hi1 : g / locheight H P1 < P1 :=
    Nat.div_lt_of_lt_mul (by rw [Nat.mul_comm, hq1]; exact hg)
  have hrow1 : gatherRow H P1 (g / locheight H P1) (g % locheight H P1) = g := by
    unfold gatherRow
    exact Nat.div_add_mod' g _
  have hj2 : g / P2 < lsize H P2 := Nat.div_lt_of_lt_mul (by rw [hq2]; exact hg)
  have hrow2 : ownedRow P2 (g % P2) (g / P2) = g := by
    unfold ownedRow
    exact Nat.mod_add_div g P2
  have hdest2 : destRow P2 (g / P2) (g % P2) = g := by
    rw [destRow_eq_ownedRow, hrow2]
  have hHW : H ≤ W * H := Nat.le_mul_of_pos_left H (by omega)
  have hWW : W ≤ W * H := Nat.le_mul_of_pos_right W (by omega)
  have hgW : g * W ≤ W * H := by
    rw [Nat.mul_comm W H]
    exact Nat.mul_le_mul_right _ (Nat.le_of_lt hg)
  have hlh : locheight H P1 ≤ H := Nat.div_le_self H P1
  have hcount : W * locheight H P1 ≤ W * H := Nat.mul_le_mul_left _ hlh
  have hmodlt : g % locheight H P1 < locheight H P1 := Nat.mod_lt _ hl1
  have htile : tileIndex W (g % locheight H P1) c ≤ W * H := by
    unfold tileIndex
    calc W * (g % locheight H P1) + c ≤ W * (g % locheight H P1) + W := by omega
      _ = W * (g % locheight H P1 + 1) := by ring
      _ ≤ W * locheight H P1 := Nat.mul_le_mul_left _ hmodlt
      _ ≤ W * H := hcount
  have hp1 := contiguousPoint_eq W H P1 x_min x_max y_min y_max hH hP1 hd1
    (g / locheight H P1) (g % locheight H P1) c hi1
  rw [hrow1] at hp1
  have hp2 := interleavedPoint_eq W H P2 x_min x_max y_min y_max (g % P2) (g / P2) c
    (by rw [hrow2]; omega)
  rw [hrow2] at hp2
  have hoff2 : recvOffset W P2 (g / P2) (g % P2) = g * W := by
    rw [recvOffset_eq, hdest2]
  refine ⟨⟨hi1, hmodlt, hrow1, ?_, ?_, ?_, hp1, ?_⟩,
    ⟨Nat.mod_lt _ (by omega), hj2, hrow2, ?_, hdest2, ?_, ?_, hp2, ?_⟩, hp1.trans hp2.symm⟩
  · exact tileIndexInt_eq _ _ _ (by omega)
  · exact gatherCountInt_eq _ _ _ (by omega)
  · rw [gatherOffset_tileIndex, hrow1]
  · exact gatherProgram_cell W H P1 n x_min x_max y_min y_max behind1 im hW hH hP1 hd1 g c
      hg hc
  · rw [ownedRowInt_eq _ _ _ (by rw [hrow2]; omega), hrow2]
  · exact recvOffsetInt_eq _ _ _ _ (by omega) (by rw [hdest2]; omega) (by rw [hoff2]; omega)
  · rw [hoff2]
  · unfold interleavedTile
    rw [if_pos hc, ← hp2]
    rfl

/-- Witness of `partition_invariant_points` at `W = 4`, `H = 4`, budget 10 with
the default bounds, `mpi_omp.c` on 2 ranks and `isend.c`/`pack.c` on 4 ranks,
for the cell of row 3, column 1. -/
theorem partition_invariant_points_witness :
    1 ≤ 4 ∧ 1 ≤ 4 ∧ 4 * 4 ≤ INT_MAX ∧
    ((-89/50 : ℚ) < 39/50) ∧ ((-961/1000 : ℚ) < 961/1000) ∧
    1 ≤ 2 ∧ 1 ≤ 4 ∧ 2 ∣ 4 ∧ 4 ∣ 4 ∧ 3 < 4 ∧ 1 < 4 ∧
    ((3 / locheight 4 2 < 2 ∧ 3 % locheight 4 2 < locheight 4 2 ∧
      gatherRow 4 2 (3 / locheight 4 2) (3 % locheight 4 2) = 3 ∧
      tileIndexInt 4 (3 % locheight 4 2) 1
        = ((tileIndex 4 (3 % locheight 4 2) 1 : Nat) : Int) ∧
      gatherCountInt 4 4 2 = ((4 * locheight 4 2 : Nat) : Int) ∧
      gatherOffset 4 4 2 (3 / locheight 4 2) (tileIndex 4 (3 % locheight 4 2) 1)
        = 3 * 4 + 1 ∧
      contiguousPoint 4 4 2 (-89/50) (39/50) (-961/1000) (961/1000)
          (3 / locheight 4 2) (3 % locheight 4 2) 1
        = specPoint 4 4 (-89/50) (39/50) (-961/1000) (961/1000) 3 1 ∧
      gatherProgram 4 4 2 10 (-89/50) (39/50) (-961/1000) (961/1000) (fun _ => 0)
          (fun _ => 0) (3 * 4 + 1)
        = pixelAt (specPoint 4 4 (-89/50) (39/50) (-961/1000) (961/1000) 3 1) 10) ∧
    (3 % 4 < 4 ∧ 3 / 4 < lsize 4 4 ∧
      ownedRow 4 (3 % 4) (3 / 4) = 3 ∧ ownedRowInt 4 (3 % 4) (3 / 4) = ((3 : Nat) : Int) ∧
      destRow 4 (3 / 4) (3 % 4) = 3 ∧
      recvOffsetInt 4 4 (3 / 4) (3 % 4) = ((recvOffset 4 4 (3 / 4) (3 % 4) : Nat) : Int) ∧
      recvOffset 4 4 (3 / 4) (3 % 4) + 1 = 3 * 4 + 1 ∧
      interleavedPoint 4 4 4 (-89/50) (39/50) (-961/1000) (961/1000) (3 % 4) (3 / 4) 1
        = specPoint 4 4 (-89/50) (39/50) (-961/1000) (961/1000) 3 1 ∧
      interleavedTile 4 4 4 10 (-89/50) (39/50) (-961/1000) (961/1000) (fun _ _ => 0)
          (3 % 4) (3 / 4) 1
        = pixelAt (specPoint 4 4 (-89/50) (39/50) (-961/1000) (961/1000) 3 1) 10) ∧
    contiguousPoint 4 4 2 (-89/50) (39/50) (-961/1000) (961/1000)
        (3 / locheight 4 2) (3 % locheight 4 2) 1
      = interleavedPoint 4 4 4 (-89/50) (39/50) (-961/1000) (961/1000) (3 % 4) (3 / 4) 1) :=
  ⟨by decide, by decide, by decide, by norm_num, by norm_num, by decide, by decide, by decide,
    by decide, by decide, by decide,
    partition_invariant_points 4 4 2 4 10 (-89/50) (39/50) (-961/1000) (961/1000)
      (fun _ => 0) (fun _ => 0) (fun _ _ => 0)
      (by decide) (by decide) (by decide) (by norm_num) (by norm_num) (by decide) (by decide)
      (by decide) (by decide) 3 1 (by decide) (by decide)⟩

/-! ## The pack/unpack transport -/

theorem packRounds_zero (imloc : Nat → Mem) (W : Nat) (buffer : Mem) :
    packRounds imloc W 0 buffer = some (buffer, 0) := by
  simp [packRounds]

theorem packRounds_succ (imloc : Nat → Mem) (W k : Nat) (buffer : Mem) :
    packRounds imloc W (k + 1) buffer
      = (packRounds imloc W k buffer).bind
          (fun st => MPI_Pack (imloc k) (local_size W + 1) st.1 bufferCapacity st.2) := by
  unfold packRounds
  rw [List.range_succ, List.foldlM_append]
  simp

theorem unpackRounds_zero (W P r : Nat) (buffer im : Mem) :
    unpackRounds W P r buffer 0 im = some (im, 0) := by
  simp [unpackRounds]

theorem unpackRounds_succ (W P r : Nat) (buffer : Mem) (k : Nat) (im : Mem) :
    unpackRounds W P r buffer (k + 1) im
      = (unpackRounds W P r buffer k im).bind
          (fun st => MPI_Unpack buffer bufferCapacity st.2 st.1 (recvOffset W P k r)
            (local_size W + 1)) := by
  unfold unpackRounds
  rw [List.range_succ, List.foldlM_append]
  simp

theorem packRounds_cursor (imloc : Nat → Mem) (W k : Nat) (buffer : Mem) (st : Mem × Nat)
    (h : packRounds imloc W k buffer = some st) :
    st.2 = k * (local_size W + 1) ∧ st.2 ≤ bufferCapacity := by
  induction k generalizing st with
  | zero =>
    rw [packRounds_zero] at h
    cases h
    simp
  | succ k ih =>
    rw [packRounds_succ] at h
    cases hk : packRounds imloc W k buffer with
    | none => rw [hk] at h; simp at h
    | some st' =>
      rw [hk] at h
      simp only [Option.some_bind, MPI_Pack] at h
      have := ih st' hk
      split at h
      · cases h
        simp only
        constructor
        · rw [this.1]; ring
        · assumption
      · simp at h

theorem packRounds_ok (imloc : Nat → Mem) (W k : Nat) (buffer : Mem)
    (h : k * (local_size W + 1) ≤ bufferCapacity) :
    packRounds imloc W k buffer
      = some (packedBuffer imloc W k buffer, k * (local_size W + 1)) := by
  induction k with
  | zero =>
    rw [packRounds_zero]
    congr 1
    refine Prod.ext ?_ (by simp)
    funext a
    simp [packedBuffer]
  | succ k ih =>
    have hk : k * (local_size W + 1) ≤ bufferCapacity := by
      have : k * (local_size W + 1) ≤ (k + 1) * (local_size W + 1) :=
        Nat.mul_le_mul_right _ (Nat.le_succ k)
      omega
    have hs : k * (local_size W + 1) + (local_size W + 1) = (k + 1) * (local_size W + 1) := by
      ring
    rw [packRounds_succ, ih hk]
    simp only [Option.some_bind, MPI_Pack]
    rw [if_pos (by omega)]
    congr 1
    refine Prod.ext ?_ (by simp only; omega)
    funext a
    simp only [packedBuffer]
    have hpos : 0 < local_size W + 1 := Nat.succ_pos _
    by_cases h1 : a < k * (local_size W + 1)
    · have h2 : a < (k + 1) * (local_size W + 1) := by omega
      rw [if_neg (by omega), if_pos h1, if_pos h2]
    · by_cases h2 : a < (k + 1) * (local_size W + 1)
      · rw [if_pos ⟨by omega, by omega⟩, if_pos h2]
        have hdiv : a / (local_size W + 1) = k := by
          apply Nat.div_eq_of_lt_le
          · omega
          · omega
        have hmod : a % (local_size W + 1) = a - k * (local_size W + 1) := by
          have := Nat.div_add_mod a (local_size W + 1)
          rw [hdiv, Nat.mul_comm] at this
          omega
        rw [hdiv, hmod]
      · rw [if_neg (by omega), if_neg h1, if_neg h2]

theorem packedBuffer_record (imloc : Nat → Mem) (W k : Nat) (buffer : Mem) (jj c : Nat)
    (hjj : jj < k) (hc : c < local_size W + 1) :
    packedBuffer imloc W k buffer (jj * (local_size W + 1) + c) = imloc jj c := by
  unfold packedBuffer
  have h1 : jj * (local_size W + 1) + c < k * (local_size W + 1) := by
    calc jj * (local_size W + 1) + c < jj * (local_size W + 1) + (local_size W + 1) := by omega
      _ = (jj + 1) * (local_size W + 1) := by ring
      _ ≤ k * (local_size W + 1) := Nat.mul_le_mul_right _ hjj
  rw [if_pos h1]
  have hdiv : (jj * (local_size W + 1) + c) / (local_size W + 1) = jj := by
    rw [Nat.add_comm, Nat.add_mul_div_right _ _ (Nat.succ_pos _), Nat.div_eq_of_lt hc]
    simp
  have hmod : (jj * (local_size W + 1) + c) % (local_size W + 1) = c := by
    rw [Nat.add_comm, Nat.add_mul_mod_self_right, Nat.mod_eq_of_lt hc]
  rw [hdiv, hmod]

theorem unpackRounds_ok (W P r : Nat) (buffer : Mem) (k : Nat) (im : Mem)
    (h : k * (local_size W + 1) ≤ bufferCapacity) :
    ∃ m, unpackRounds W P r buffer k im = some (m, k * (local_size W + 1)) := by
  induction k with
  | zero => exact ⟨im, by rw [unpackRounds_zero]; simp⟩
  | succ k ih =>
    have hs : k * (local_size W + 1) + (local_size W + 1) = (k + 1) * (local_size W + 1) := by
      ring
    obtain ⟨m, hm⟩ := ih (by omega)
    rw [unpackRounds_succ, hm]
    simp only [Option.some_bind, MPI_Unpack]
    rw [if_pos (by omega), hs]
    exact ⟨_, rfl⟩

theorem unpackRounds_last (W P r : Nat) (buffer : Mem) (jj : Nat) (im : Mem)
    (h : (jj + 1) * (local_size W + 1) ≤ bufferCapacity) :
    ∃ m, unpackRounds W P r buffer (jj + 1) im = some (m, (jj + 1) * (local_size W + 1)) ∧
      ∀ c, c < local_size W + 1 →
        m (recvOffset W P jj r + c) = buffer (jj * (local_size W + 1) + c) := by
  have hs : jj * (local_size W + 1) + (local_size W + 1) = (jj + 1) * (local_size W + 1) := by
    ring
  obtain ⟨m0, hm0⟩ := unpackRounds_ok W P r buffer jj im (by omega)
  rw [unpackRounds_succ, hm0]
  simp only [Option.some_bind, MPI_Unpack]
  rw [if_pos (by omega), hs]
  refine ⟨_, rfl, ?_⟩
  intro c hc
  rw [if_pos ⟨by omega, by omega⟩]
  congr 1
  omega

theorem receiveRanks_length (P : Nat) : (receiveRanks P).length = P - 1 := by
  simp [receiveRanks]

theorem mem_receiveRanks (P r : Nat) : r ∈ receiveRanks P ↔ 1 ≤ r ∧ r < P := by
  unfold receiveRanks
  rw [List.mem_range'_1]
  omega

theorem receiveRanks_nodup (P : Nat) : (receiveRanks P).Nodup := by
  unfold receiveRanks
  exact List.nodup_range' 1 (P - 1)

theorem receiveStep_ok (tile : Nat → Nat → Mem) (W H P : Nat) (buffer : Nat → Mem)
    (hcap : lsize H P * (local_size W + 1) ≤ bufferCapacity) (l : List Nat) (im : Mem) :
    ∃ m, l.foldlM
      (fun m r => do
        let sent ← packRounds (tile r) W (lsize H P) (buffer r)
        let res ← unpackRounds W P r sent.1 (lsize H P) m
        pure res.1) im = some m := by
  induction l generalizing im with
  | nil => exact ⟨im, rfl⟩
  | cons r l ih =>
    obtain ⟨m1, hm1⟩ := unpackRounds_ok W P r
      (packedBuffer (tile r) W (lsize H P) (buffer r)) (lsize H P) im hcap
    rw [List.foldlM_cons, packRounds_ok _ _ _ _ hcap]
    simp only [Option.bind_eq_bind, Option.some_bind, hm1, Option.pure_def]
    exact ih m1

/-- C5 (as stated, refuted): `pack.c` with `W = 1023`, `H = 2100224` and
`P = 2051` (so `q = H/P = 1024` rounds and `q*(W+1) = 2^20`), rank `r = 2050`,
round `jj = 1023`: the exact offset `(jj*P + r)*W` is 2148528129, above
`INT_MAX`, and the `int` variable `l` handed to `MPI_Unpack` holds
-2146439167, so the record is not placed at raster row `jj*P + r`. -/
theorem offset_wraps_2051 :
    2 ≤ 2051 ∧ 1 ≤ 2050 ∧ 2050 < 2051 ∧
    lsize 2100224 2051 * (1023 + 1) ≤ 2 ^ 20 ∧ 1023 < lsize 2100224 2051 ∧
    destRow 2051 1023 2050 * 1023 = 2148528129 ∧
    recvOffsetInt 1023 2051 1023 2050 = -2146439167 ∧
    recvOffsetInt 1023 2051 1023 2050 ≠ ((destRow 2051 1023 2050 * 1023 : Nat) : Int) := by
  decide

/-- C5 (amended): in `pack.c`, for every `P >= 2`, every rank `r` with
`1 <= r < P` and `q = H/P` rounds with `q*(W+1) <= 2^20`, on a raster of at
most `INT_MAX` bytes (`H <= INT_MAX`, `W*H <= INT_MAX`): the worker's `q`
calls of `MPI_Pack` all succeed and leave the write cursor at `q*(W+1)`, each
record advancing it by `W+1`; the receive loop of rank 0 runs once for each of
the `P-1` ranks `1,...,P-1`, `r` among them, and ends without an error; its
`q` calls of `MPI_Unpack` on the buffer of `r`, from the cursor 0, all succeed
and leave the read cursor at `q*(W+1)`; and for every round `jj < q` the
`int` variable `l` holds `(jj*P + r)*W` and, for every column `c < W`, the
byte that the unpack of record `jj` puts at offset `l + c`, column `c` of
raster row `jj*P + r = r + P*jj`, is the byte at `imloc.pixels[c]` of rank
`r` after `Compute` of round `jj`. -/
theorem pack_unpack_roundtrip (tile : Nat → Nat → Mem) (W H P r : Nat)
    (buffer : Nat → Mem) (im : Mem)
    (_hP : 2 ≤ P) (hr1 : 1 ≤ r) (hrP : r < P)
    (hcap : lsize H P * (local_size W + 1) ≤ bufferCapacity)
    (hH : H ≤ INT_MAX) (hfit : W * H ≤ INT_MAX) :
    local_size W + 1 = W + 1 ∧
    (∀ k, k ≤ lsize H P → ∃ b, packRounds (tile r) W k (buffer r) = some (b, k * (W + 1))) ∧
    (receiveRanks P).length = P - 1 ∧ (receiveRanks P).Nodup ∧
    (∀ s, s ∈ receiveRanks P ↔ 1 ≤ s ∧ s < P) ∧ r ∈ receiveRanks P ∧
    (∃ m, coordinatorReceive tile W H P buffer im = some m) ∧
    ∃ sent, packRounds (tile r) W (lsize H P) (buffer r) = some (sent, lsize H P * (W + 1)) ∧
      (∃ m, unpackRounds W P r sent (lsize H P) im = some (m, lsize H P * (W + 1))) ∧
      ∀ jj, jj < lsize H P →
        recvOffsetInt W P jj r = ((destRow P jj r * W : Nat) : Int) ∧
        recvOffset W P jj r = destRow P jj r * W ∧
        destRow P jj r = ownedRow P r jj ∧ destRow P jj r < H ∧
        ∃ m, unpackRounds W P r sent (jj + 1) im = some (m, (jj + 1) * (W + 1)) ∧
          ∀ c, c < W → m (recvOffset W P jj r + c) = tile r jj c := by
  have hls : local_size W + 1 = W + 1 := by simp [local_size]
  have hle : ∀ k, k ≤ lsize H P → k * (local_size W + 1) ≤ bufferCapacity := by
    intro k hk
    have : k * (local_size W + 1) ≤ lsize H P * (local_size W + 1) :=
      Nat.mul_le_mul_right _ hk
    omega
  refine ⟨hls, ?_, receiveRanks_length P, receiveRanks_nodup P, mem_receiveRanks P,
    (mem_receiveRanks P r).2 ⟨hr1, hrP⟩, ?_, ?_⟩
  · intro k hk
    refine ⟨packedBuffer (tile r) W k (buffer r), ?_⟩
    rw [packRounds_ok _ _ _ _ (hle k hk), hls]
  · unfold coordinatorReceive
    exact receiveStep_ok tile W H P buffer hcap (receiveRanks P) im
  · refine ⟨packedBuffer (tile r) W (lsize H P) (buffer r), ?_, ?_, ?_⟩
    · rw [packRounds_ok _ _ _ _ hcap, hls]
    · obtain ⟨m, hm⟩ := unpackRounds_ok W P r
        (packedBuffer (tile r) W (lsize H P) (buffer r)) (lsize H P) im hcap
      exact ⟨m, by rw [hm, hls]⟩
    · intro jj hjj
      have hrow : destRow P jj r < H := by
        rw [destRow_eq_ownedRow]
        have h1 := ownedRow_lt hrP hjj
        have h2 : P * lsize H P ≤ H := Nat.mul_div_le H P
        omega
      have hoff : recvOffset W P jj r = destRow P jj r * W := recvOffset_eq W P jj r
      have hoffle : destRow P jj r * W ≤ W * H := by
        rw [Nat.mul_comm W H]
        exact Nat.mul_le_mul_right _ (Nat.le_of_lt hrow)
      have hWle : W ≤ INT_MAX := by
        have : W ≤ W * H := Nat.le_mul_of_pos_right W (by omega)
        omega
      refine ⟨?_, hoff, destRow_eq_ownedRow P jj r, hrow, ?_⟩
      · rw [← hoff]
        exact recvOffsetInt_eq W P jj r hWle (by omega) (by rw [hoff]; omega)
      · obtain ⟨m, hm, hbytes⟩ := unpackRounds_last W P r
          (packedBuffer (tile r) W (lsize H P) (buffer r)) jj im (hle (jj + 1) hjj)
        refine ⟨m, by rw [hm, hls], ?_⟩
        intro c hc
        rw [hbytes c (by omega), packedBuffer_record _ _ _ _ _ _ hjj (by omega)]

/-- Witness of `pack_unpack_roundtrip` at `W = 4`, `H = 8`, `P = 4`, rank 3,
with tiles whose byte `c` of round `jj` on rank `r` is `100*r + 10*jj + c`. -/
theorem pack_unpack_roundtrip_witness :
    2 ≤ 4 ∧ 1 ≤ 3 ∧ 3 < 4 ∧ lsize 8 4 * (local_size 4 + 1) ≤ bufferCapacity ∧
    8 ≤ INT_MAX ∧ 4 * 8 ≤ INT_MAX ∧
    (local_size 4 + 1 = 4 + 1 ∧
    (∀ k, k ≤ lsize 8 4 → ∃ b, packRounds ((fun r jj c => 100 * r + 10 * jj + c) 3) 4 k
      ((fun _ _ => 0) 3) = some (b, k * (4 + 1))) ∧
    (receiveRanks 4).length = 4 - 1 ∧ (receiveRanks 4).Nodup ∧
    (∀ s, s ∈ receiveRanks 4 ↔ 1 ≤ s ∧ s < 4) ∧ 3 ∈ receiveRanks 4 ∧
    (∃ m, coordinatorReceive (fun r jj c => 100 * r + 10 * jj + c) 4 8 4 (fun _ _ => 0)
      (fun _ => 0) = some m) ∧
    ∃ sent, packRounds ((fun r jj c => 100 * r + 10 * jj + c) 3) 4 (lsize 8 4)
        ((fun _ _ => 0) 3) = some (sent, lsize 8 4 * (4 + 1)) ∧
      (∃ m, unpackRounds 4 4 3 sent (lsize 8 4) (fun _ => 0) = some (m, lsize 8 4 * (4 + 1))) ∧
      ∀ jj, jj < lsize 8 4 →
        recvOffsetInt 4 4 jj 3 = ((destRow 4 jj 3 * 4 : Nat) : Int) ∧
        recvOffset 4 4 jj 3 = destRow 4 jj 3 * 4 ∧
        destRow 4 jj 3 = ownedRow 4 3 jj ∧ destRow 4 jj 3 < 8 ∧
        ∃ m, unpackRounds 4 4 3 sent (jj + 1) (fun _ => 0) = some (m, (jj + 1) * (4 + 1)) ∧
          ∀ c, c < 4 →
            m (recvOffset 4 4 jj 3 + c) = (fun r jj c => 100 * r + 10 * jj + c) 3 jj c) :=
  ⟨by decide, by decide, by decide, by decide, by decide, by decide,
    pack_unpack_roundtrip (fun r jj c => 100 * r + 10 * jj + c) 4 8 4 3 (fun _ _ => 0)
      (fun _ => 0) (by decide) (by decide) (by decide) (by decide) (by decide) (by decide)⟩

/-- C7 (as stated, refuted): for `W = 2048`, `H = 2048` and `P = 2` the rounds
of a worker times the width, `1024 * 2048` bytes, exceed the `1<<20` bytes of
the buffer, and the worker's sequence of `MPI_Pack` calls fails. -/
theorem capacity_fails_2048 :
    bufferCapacity < lsize 2048 2 * 2048 ∧
    packRounds (fun _ _ => 0) 2048 (lsize 2048 2) (fun _ => 0) = none := by
  have h1 : bufferCapacity < lsize 2048 2 * 2048 := by decide
  refine ⟨h1, ?_⟩
  cases h : packRounds (fun _ _ => 0) 2048 (lsize 2048 2) (fun _ => 0) with
  | none => rfl
  | some st =>
    have h2 := packRounds_cursor _ _ _ _ st h
    have h3 : lsize 2048 2 * 2048 ≤ lsize 2048 2 * (local_size 2048 + 1) :=
      Nat.mul_le_mul_left _ (by decide)
    omega

/-- C7 (amended): in `pack.c` the pack buffer has the fixed capacity `1<<20`
whatever `W >= 1`, `H >= 1` and `P >= 2` are.  Whenever the `H/P` calls of
`MPI_Pack` of a worker all succeed, the capacity is at least the rounds
assigned to the worker times the width; when `(H/P)*W` exceeds the capacity
they do not all succeed; and after any `k` successful calls the write cursor
is at least `k*W` and does not exceed the capacity. -/
theorem capacity_fixed (imloc : Nat → Mem) (W H P : Nat) (buffer : Mem)
    (_hW : 1 ≤ W) (_hH : 1 ≤ H) (_hP : 2 ≤ P) :
    bufferCapacity = 2 ^ 20 ∧
    ((∃ st, packRounds imloc W (lsize H P) buffer = some st) →
      lsize H P * W ≤ bufferCapacity) ∧
    (bufferCapacity < lsize H P * W → packRounds imloc W (lsize H P) buffer = none) ∧
    (∀ k st, packRounds imloc W k buffer = some st →
      k * W ≤ st.2 ∧ st.2 ≤ bufferCapacity) := by
  have hkW : ∀ k st, packRounds imloc W k buffer = some st →
      k * W ≤ st.2 ∧ st.2 ≤ bufferCapacity := by
    intro k st hst
    have h := packRounds_cursor _ _ _ _ st hst
    have h2 : k * W ≤ k * (local_size W + 1) :=
      Nat.mul_le_mul_left _ (by simp [local_size])
    omega
  refine ⟨by decide, ?_, ?_, hkW⟩
  · rintro ⟨st, hst⟩
    have := hkW _ st hst
    omega
  · intro hlt
    cases h : packRounds imloc W (lsize H P) buffer with
    | none => rfl
    | some st =>
      have := hkW _ st h
      omega

/-- Witness of `capacity_fixed` at the default dimensions `W = 1024`,
`H = 768` with `P = 4`. -/
theorem capacity_fixed_witness :
    1 ≤ 1024 ∧ 1 ≤ 768 ∧ 2 ≤ 4 ∧
    (bufferCapacity = 2 ^ 20 ∧
    ((∃ st, packRounds (fun _ _ => 0) 1024 (lsize 768 4) (fun _ => 0) = some st) →
      lsize 768 4 * 1024 ≤ bufferCapacity) ∧
    (bufferCapacity < lsize 768 4 * 1024 →
      packRounds (fun _ _ => 0) 1024 (lsize 768 4) (fun _ => 0) = none) ∧
    (∀ k st, packRounds (fun _ _ => 0) 1024 k (fun _ => 0) = some st →
      k * 1024 ≤ st.2 ∧ st.2 ≤ bufferCapacity)) :=
  ⟨by decide, by decide, by decide,
    capacity_fixed (fun _ _ => 0) 1024 768 4 (fun _ => 0) (by decide) (by decide) (by decide)⟩

/-! ## Destination ranges of the coordinator -/

/-- C10 (code evaluated where the claim fails): for every `W >= 1`, `H >= 1`
and `P >= 2` dividing `H`, the last `MPI_Unpack` of `pack.c` for rank `P-1`
and the last `MPI_Irecv` of `isend.c` for rank `P-1` have a destination range
that ends one byte behind the `W*H` bytes of the raster, at column 0 of row
`H`. -/
theorem last_range_leaves_raster (W H P : Nat) (_hW : 1 ≤ W) (hH : 1 ≤ H) (hP : 2 ≤ P)
    (hd : P ∣ H) :
    (recvOffset W P (lsize H P - 1) (P - 1), local_size W + 1) ∈ packWrites W H P ∧
    (recvOffset W P (lsize H P - 1) (P - 1), local_size W + 1) ∈ isendWrites W H P ∧
    recvOffset W P (lsize H P - 1) (P - 1) + (local_size W + 1) = allocSize W H + 1 ∧
    recvOffset W P (lsize H P - 1) (P - 1) + local_size W = H * W + 0 ∧
    ¬ insideRaster W H (recvOffset W P (lsize H P - 1) (P - 1), local_size W + 1) := by
  have hq : P * lsize H P = H := Nat.mul_div_cancel' hd
  have hqpos : 0 < lsize H P := by
    rcases Nat.eq_zero_or_pos (lsize H P) with h | h
    · rw [h] at hq; omega
    · exact h
  have hrow : (lsize H P - 1) * P + (P - 1) + 1 = H := by
    have h1 : (lsize H P - 1) * P + P = lsize H P * P := by
      have : lsize H P = (lsize H P - 1) + 1 := by omega
      calc (lsize H P - 1) * P + P = ((lsize H P - 1) + 1) * P := by ring
        _ = lsize H P * P := by rw [← this]
    rw [Nat.mul_comm] at hq
    omega
  have hoff : recvOffset W P (lsize H P - 1) (P - 1) + local_size W = H * W := by
    unfold recvOffset local_size
    rw [Nat.mul_one]
    calc ((lsize H P - 1) * P + (P - 1)) * W + W
        = ((lsize H P - 1) * P + (P - 1) + 1) * W := by ring
      _ = H * W := by rw [hrow]
  have halloc : allocSize W H = H * W := by
    unfold allocSize
    ring
  refine ⟨?_, ?_, ?_, ?_, ?_⟩
  · unfold packWrites
    simp only [List.mem_flatMap, List.mem_map, List.mem_range]
    exact ⟨P - 1, (mem_receiveRanks P (P - 1)).2 ⟨by omega, by omega⟩, lsize H P - 1,
      by omega, rfl⟩
  · unfold isendWrites
    simp only [List.mem_flatMap, List.mem_map, List.mem_range]
    exact ⟨lsize H P - 1, by omega, P - 1, by omega, rfl⟩
  · rw [halloc]
    omega
  · omega
  · unfold insideRaster
    simp only
    rw [halloc]
    omega

/-- Witness of `last_range_leaves_raster` at `W = 1`, `H = 2`, `P = 2`: rank 0
unpacks 2 bytes at offset 1 of a raster of 2 bytes. -/
theorem last_range_leaves_raster_witness :
    1 ≤ 1 ∧ 1 ≤ 2 ∧ 2 ≤ 2 ∧ 2 ∣ 2 ∧
    ((recvOffset 1 2 (lsize 2 2 - 1) (2 - 1), local_size 1 + 1) ∈ packWrites 1 2 2 ∧
    (recvOffset 1 2 (lsize 2 2 - 1) (2 - 1), local_size 1 + 1) ∈ isendWrites 1 2 2 ∧
    recvOffset 1 2 (lsize 2 2 - 1) (2 - 1) + (local_size 1 + 1) = allocSize 1 2 + 1 ∧
    recvOffset 1 2 (lsize 2 2 - 1) (2 - 1) + local_size 1 = 2 * 1 + 0 ∧
    ¬ insideRaster 1 2 (recvOffset 1 2 (lsize 2 2 - 1) (2 - 1), local_size 1 + 1)) :=
  ⟨by decide, by decide, by decide, by decide,
    last_range_leaves_raster 1 2 2 (by decide) (by decide) (by decide) (by decide)⟩

/-! ## The raster assembled by `pack.c` -/

/-- Evaluation of `pack.c` with `W = 1`, `H = 4`, `P = 2`, where every
computed pixel is 0 and the byte behind the one-byte tile of each rank is 7,
on a zeroed buffer and a zeroed raster.  Raster row 2,
owned by rank 0 in round 1, ends with 7, the extra byte of the record of
round 0 of rank 1, and not with the 0 that rank 0 computed and stored. -/
theorem pack_overwrites_row_2 :
    (packProgram (fun _ _ k => if k < 1 then 0 else 7) 1 4 2 (fun _ _ => 0) (fun _ => 0)).map
        (fun m => m (destRow 2 1 0 * 1 + 0)) = some 7 ∧
    (fun (_ : Nat) (_ : Nat) (k : Nat) => if k < 1 then 0 else 7) 0 1 0 = 0 ∧
    (coordinatorRows (fun _ _ k => if k < 1 then 0 else 7) 1 4 2 (fun _ => 0))
        (destRow 2 1 0 * 1 + 0) = 0 ∧
    destRow 2 1 0 < 2 * lsize 4 2 ∧ lsize 4 2 * (local_size 1 + 1) ≤ bufferCapacity := by
  decide

/-! ## The receive requests of `isend.c` -/

theorem irecv_fold (jj n : Nat) (s : Requests) :
    (List.range n).foldl (fun t r => MPI_Irecv jj r t) s
      = ⟨if n = 0 then s.request_recv else some (jj, n - 1),
          s.outstanding ++ (List.range n).map fun r => (jj, r)⟩ := by
  induction n with
  | zero => simp
  | succ n ih =>
    rw [List.range_succ, List.foldl_append, ih]
    simp [MPI_Irecv]

theorem isendRound_eq (P jj : Nat) (s : Requests) (hP : 2 ≤ P)
    (hs : ∀ x ∈ s.outstanding, x.1 ≠ jj) :
    isendRound P jj s
      = ⟨none, s.outstanding ++ (List.range (P - 1)).map fun r => (jj, r)⟩ := by
  obtain ⟨n, rfl⟩ : ∃ n, P = n + 1 := ⟨P - 1, by omega⟩
  unfold isendRound
  rw [if_pos (by omega), irecv_fold]
  simp only [Nat.add_sub_cancel, Nat.succ_ne_zero, if_false, MPI_Wait]
  congr 1
  rw [List.range_succ, List.map_append, ← List.append_assoc]
  have hnot : (jj, n) ∉ s.outstanding ++ (List.range n).map fun r => (jj, r) := by
    intro hmem
    rcases List.mem_append.1 hmem with h | h
    · exact hs _ h rfl
    · simp only [List.mem_map, List.mem_range, Prod.mk.injEq] at h
      obtain ⟨r, hr, -, hrn⟩ := h
      omega
  rw [List.erase_append_right _ hnot]
  simp

theorem isendRounds_eq (P k : Nat) (hP : 2 ≤ P) :
    isendRounds P k
      = ⟨none, (List.range k).flatMap fun jj => (List.range (P - 1)).map fun r => (jj, r)⟩ := by
  induction k with
  | zero => simp [isendRounds]
  | succ k ih =>
    have hstep : isendRounds P (k + 1) = isendRound P k (isendRounds P k) := by
      unfold isendRounds
      rw [List.range_succ, List.foldl_append]
      rfl
    rw [hstep, ih, isendRound_eq P k _ hP]
    · rw [List.range_succ, List.flatMap_append]
      simp
    · intro x hx
      simp only [List.mem_flatMap, List.mem_map, List.mem_range] at hx
      obtain ⟨jj, hjj, r, _, rfl⟩ := hx
      simp only
      omega

theorem isendCoordinator_eq (H P : Nat) (hP : 2 ≤ P) :
    isendCoordinator H P
      = ⟨none, (List.range (lsize H P)).flatMap fun jj =>
          (List.range (P - 1)).map fun r => (jj, r)⟩ := by
  unfold isendCoordinator
  rw [if_pos (by omega), isendRounds_eq P _ hP]
  rfl

/-- C6 (code evaluated where the claim fails): for every `P >= 2` and `H`, when
rank 0 of `isend.c` has finished round `jj < H/P` the receives of that round
from the ranks `0,...,P-2` are still outstanding, only the one from rank
`P-1` has been waited for; and they are all still outstanding when rank 0
reaches `save`. -/
theorem isend_requests_left (H P : Nat) (hP : 2 ≤ P) :
    (∀ k, (isendRounds P k).outstanding
      = (List.range k).flatMap fun jj => (List.range (P - 1)).map fun r => (jj, r)) ∧
    (∀ jj r, jj < lsize H P → r < P - 1 →
      (jj, r) ∈ (isendRounds P (jj + 1)).outstanding ∧
      (jj, r) ∈ (isendCoordinator H P).outstanding) ∧
    (∀ jj, jj < lsize H P → (jj, P - 1) ∉ (isendRounds P (jj + 1)).outstanding) := by
  refine ⟨?_, ?_, ?_⟩
  · intro k
    rw [isendRounds_eq P k hP]
  · intro jj r hjj hr
    rw [isendRounds_eq P _ hP, isendCoordinator_eq H P hP]
    simp only [List.mem_flatMap, List.mem_map, List.mem_range]
    exact ⟨⟨jj, by omega, r, hr, rfl⟩, ⟨jj, hjj, r, hr, rfl⟩⟩
  · intro jj _
    rw [isendRounds_eq P _ hP]
    simp only [List.mem_flatMap, List.mem_map, List.mem_range, Prod.mk.injEq, not_exists,
      not_and]
    intro j _ r hr _
    omega

/-- Witness of `isend_requests_left` at `H = 6`, `P = 3`. -/
theorem isend_requests_left_witness :
    2 ≤ 3 ∧
    ((∀ k, (isendRounds 3 k).outstanding
      = (List.range k).flatMap fun jj => (List.range (3 - 1)).map fun r => (jj, r)) ∧
    (∀ jj r, jj < lsize 6 3 → r < 3 - 1 →
      (jj, r) ∈ (isendRounds 3 (jj + 1)).outstanding ∧
      (jj, r) ∈ (isendCoordinator 6 3).outstanding) ∧
    (∀ jj, jj < lsize 6 3 → (jj, 3 - 1) ∉ (isendRounds 3 (jj + 1)).outstanding)) :=
  ⟨by decide, isend_requests_left 6 3 (by decide)⟩

/-- The requests of rank 0 of `isend.c` with `H = 6`, `P = 3`: after round 0
the receives from ranks 0 and 1 are outstanding, and at `save` those of both
rounds are. -/
theorem isend_requests_6_3 :
    (isendRounds 3 1).outstanding = [(0, 0), (0, 1)] ∧
    (isendCoordinator 6 3).outstanding = [(0, 0), (0, 1), (1, 0), (1, 1)] := by
  decide

theorem coordinatorRows_succ (tile : Nat → Nat → Mem) (W P k : Nat) (im : Mem) :
    (List.range (k + 1)).foldl (fun m jj => copyOwnRow W P (tile 0 jj) jj m) im
      = copyOwnRow W P (tile 0 k) k
          ((List.range k).foldl (fun m jj => copyOwnRow W P (tile 0 jj) jj m) im) := by
  rw [List.range_succ, List.foldl_append]
  rfl

theorem coordinatorRows_first_column (tile : Nat → Nat → Mem) (W P : Nat) (im : Mem)
    (hW : 1 ≤ W) (hP : 1 ≤ P) (jj k : Nat) (hk : jj + 1 ≤ k) :
    ((List.range k).foldl (fun m j => copyOwnRow W P (tile 0 j) j m) im)
        (recvOffset W P jj 0) = tile 0 jj 0 := by
  induction k, hk using Nat.le_induction with
  | base =>
    rw [coordinatorRows_succ]
    unfold copyOwnRow recvOffset
    simp only [Nat.add_zero]
    rw [if_pos ⟨le_refl _, by omega⟩, Nat.sub_self]
  | succ k hk ih =>
    rw [coordinatorRows_succ]
    unfold copyOwnRow
    have hlt : recvOffset W P jj 0 < k * P * local_size W := by
      unfold recvOffset local_size
      simp only [Nat.add_zero, Nat.mul_one]
      have h1 : jj * P < k * P := Nat.mul_lt_mul_of_pos_right (by omega) (by omega)
      exact Nat.mul_lt_mul_of_pos_right h1 (by omega)
    rw [if_neg (by omega)]
    exact ih

theorem unpackRounds_extra_byte (W P : Nat) (buffer im : Mem) (hW : 1 ≤ W) (hP : 2 ≤ P)
    (jj k : Nat) (hk : jj + 1 ≤ k) (hcap : k * (local_size W + 1) ≤ bufferCapacity) :
    ∃ m, unpackRounds W P (P - 1) buffer k im = some (m, k * (local_size W + 1)) ∧
      m (recvOffset W P (jj + 1) 0) = buffer (jj * (local_size W + 1) + W) := by
  have hA : recvOffset W P (jj + 1) 0 = recvOffset W P jj (P - 1) + W := by
    unfold recvOffset local_size
    simp only [Nat.add_zero, Nat.mul_one]
    have : (jj + 1) * P = jj * P + (P - 1) + 1 := by
      have : (jj + 1) * P = jj * P + P := by ring
      omega
    rw [this]
    ring
  induction k, hk using Nat.le_induction with
  | base =>
    obtain ⟨m, hm, hb⟩ := unpackRounds_last W P (P - 1) buffer jj im hcap
    refine ⟨m, hm, ?_⟩
    rw [hA, hb W (by simp [local_size])]
  | succ k hk ih =>
    have hs : k * (local_size W + 1) + (local_size W + 1) = (k + 1) * (local_size W + 1) := by
      ring
    obtain ⟨m, hm, hb⟩ := ih (by omega)
    rw [unpackRounds_succ, hm]
    simp only [Option.some_bind, MPI_Unpack]
    rw [if_pos (by omega), hs]
    refine ⟨_, rfl, ?_⟩
    have hlt : recvOffset W P (jj + 1) 0 < recvOffset W P k (P - 1) := by
      unfold recvOffset local_size
      simp only [Nat.add_zero, Nat.mul_one]
      apply Nat.mul_lt_mul_of_pos_right _ (by omega)
      have : (jj + 1) * P ≤ k * P := Nat.mul_le_mul_right _ hk
      omega
    rw [if_neg (by omega)]
    exact hb

/-- C4 (code evaluated where the claim fails): the raster assembled by
`pack.c`, for every `W >= 1`, `P >= 2` and `H` whose `H/P` records fit the
buffer.  The program reaches `save`, and for every
round `jj` with a next round `jj + 1 < H/P`, column 0 of raster row
`(jj+1)*P`, where rank 0 had stored the pixel it computed in round `jj + 1`,
holds the byte behind the tile of rank `P-1` in round `jj`. -/
theorem pack_overwrites_next_round (tile : Nat → Nat → Mem) (W H P : Nat)
    (buffer : Nat → Mem) (im : Mem) (hW : 1 ≤ W) (hP : 2 ≤ P)
    (hcap : lsize H P * (local_size W + 1) ≤ bufferCapacity) :
    ∃ m, packProgram tile W H P buffer im = some m ∧
      ∀ jj, jj + 1 < lsize H P →
        destRow P (jj + 1) 0 < P * lsize H P ∧
        destRow P (jj + 1) 0 = ownedRow P 0 (jj + 1) ∧
        coordinatorRows tile W H P im (destRow P (jj + 1) 0 * W + 0) = tile 0 (jj + 1) 0 ∧
        m (destRow P (jj + 1) 0 * W + 0) = tile (P - 1) jj W := by
  unfold packProgram coordinatorReceive
  have hrk : receiveRanks P = List.range' 1 (P - 2) ++ [P - 1] := by
    unfold receiveRanks
    obtain ⟨n, rfl⟩ : ∃ n, P = n + 2 := ⟨P - 2, by omega⟩
    have h1 : n + 2 - 1 = n + 1 := by omega
    have h2 : n + 2 - 2 = n := by omega
    rw [h1, h2, List.range'_concat, Nat.one_mul, Nat.add_comm 1 n]
  rw [hrk, List.foldlM_append]
  obtain ⟨m0, hm0⟩ := receiveStep_ok tile W H P buffer hcap (List.range' 1 (P - 2))
    (coordinatorRows tile W H P im)
  rw [hm0]
  simp only [Option.bind_eq_bind, Option.some_bind, List.foldlM_cons, List.foldlM_nil,
    Option.pure_def]
  rw [packRounds_ok _ _ _ _ hcap]
  simp only [Option.some_bind]
  obtain ⟨m1, hm1⟩ := unpackRounds_ok W P (P - 1)
    (packedBuffer (tile (P - 1)) W (lsize H P) (buffer (P - 1))) (lsize H P) m0 hcap
  rw [hm1]
  simp only [Option.some_bind, Option.bind_some]
  refine ⟨m1, rfl, ?_⟩
  intro jj hjj
  have hrow : destRow P (jj + 1) 0 * W + 0 = recvOffset W P (jj + 1) 0 := by
    rw [recvOffset_eq]
    rfl
  refine ⟨?_, destRow_eq_ownedRow P (jj + 1) 0, ?_, ?_⟩
  · rw [destRow_eq_ownedRow]
    exact ownedRow_lt (by omega) hjj
  · rw [hrow]
    unfold coordinatorRows
    exact coordinatorRows_first_column tile W P im hW (by omega) (jj + 1) (lsize H P) hjj
  · rw [hrow]
    obtain ⟨m2, hm2, hb⟩ := unpackRounds_extra_byte W P
      (packedBuffer (tile (P - 1)) W (lsize H P) (buffer (P - 1))) m0 hW hP jj (lsize H P)
      (by omega) hcap
    rw [hm1] at hm2
    cases hm2
    rw [hb, packedBuffer_record _ _ _ _ _ _ (by omega) (by simp [local_size])]

/-- Witness of `pack_overwrites_next_round` at `W = 1`, `H = 4`, `P = 2`, where
every computed pixel is 0 and the byte behind each tile is 7. -/
theorem pack_overwrites_next_round_witness :
    1 ≤ 1 ∧ 2 ≤ 2 ∧ lsize 4 2 * (local_size 1 + 1) ≤ bufferCapacity ∧
    ∃ m, packProgram (fun _ _ k => if k < 1 then 0 else 7) 1 4 2 (fun _ _ => 0) (fun _ => 0)
        = some m ∧
      ∀ jj, jj + 1 < lsize 4 2 →
        destRow 2 (jj + 1) 0 < 2 * lsize 4 2 ∧
        destRow 2 (jj + 1) 0 = ownedRow 2 0 (jj + 1) ∧
        coordinatorRows (fun _ _ k => if k < 1 then 0 else 7) 1 4 2 (fun _ => 0)
            (destRow 2 (jj + 1) 0 * 1 + 0)
          = (fun (_ : Nat) (_ : Nat) (k : Nat) => if k < 1 then 0 else 7) 0 (jj + 1) 0 ∧
        m (destRow 2 (jj + 1) 0 * 1 + 0)
          = (fun (_ : Nat) (_ : Nat) (k : Nat) => if k < 1 then 0 else 7) (2 - 1) jj 1 :=
  ⟨by decide, by decide, by decide,
    pack_overwrites_next_round (fun _ _ k => if k < 1 then 0 else 7) 1 4 2 (fun _ _ => 0)
      (fun _ => 0) (by decide) (by decide) (by decide)⟩

theorem packProgram_last (tile : Nat → Nat → Mem) (W H P : Nat) (buffer : Nat → Mem)
    (im : Mem) (hP : 2 ≤ P) (hcap : lsize H P * (local_size W + 1) ≤ bufferCapacity) :
    ∃ m0 m, packProgram tile W H P buffer im = some m ∧
      unpackRounds W P (P - 1)
          (packedBuffer (tile (P - 1)) W (lsize H P) (buffer (P - 1))) (lsize H P) m0
        = some (m, lsize H P * (local_size W + 1)) := by
  unfold packProgram coordinatorReceive
  have hrk : receiveRanks P = List.range' 1 (P - 2) ++ [P - 1] := by
    unfold receiveRanks
    obtain ⟨n, rfl⟩ : ∃ n, P = n + 2 := ⟨P - 2, by omega⟩
    have h1 : n + 2 - 1 = n + 1 := by omega
    have h2 : n + 2 - 2 = n := by omega
    rw [h1, h2, List.range'_concat, Nat.one_mul, Nat.add_comm 1 n]
  rw [hrk, List.foldlM_append]
  obtain ⟨m0, hm0⟩ := receiveStep_ok tile W H P buffer hcap (List.range' 1 (P - 2))
    (coordinatorRows tile W H P im)
  rw [hm0]
  simp only [Option.bind_eq_bind, Option.some_bind, List.foldlM_cons, List.foldlM_nil,
    Option.pure_def]
  rw [packRounds_ok _ _ _ _ hcap]
  simp only [Option.some_bind]
  obtain ⟨m1, hm1⟩ := unpackRounds_ok W P (P - 1)
    (packedBuffer (tile (P - 1)) W (lsize H P) (buffer (P - 1))) (lsize H P) m0 hcap
  rw [hm1]
  simp only [Option.some_bind, Option.bind_some]
  exact ⟨m0, m1, rfl, hm1⟩

/-- C2 (code evaluated where the claim fails): for every `W >= 1`, `P >= 2`
and `H` that `P` does not divide, with at least one round, records that fit
the buffer and a raster of at most `INT_MAX` bytes, row `P*(H/P)` is a row of
the raster that is assigned to no worker, and yet the last `MPI_Unpack` of
`pack.c` (and the last `MPI_Irecv` of `isend.c`) for rank `P-1` has a
destination range that covers column 0 of that row; `pack.c` reaches `save`
with the byte behind the tile of rank `P-1` of the last round in that cell. -/
theorem pack_writes_dropped_row (tile : Nat → Nat → Mem) (W H P : Nat)
    (buffer : Nat → Mem) (im : Mem) (hW : 1 ≤ W) (hP : 2 ≤ P) (hq : 1 ≤ lsize H P)
    (hnd : ¬ P ∣ H) (hcap : lsize H P * (local_size W + 1) ≤ bufferCapacity)
    (hfit : W * H ≤ INT_MAX) :
    P * lsize H P < H ∧
    P * lsize H P ∉ contiguousRows H P ∧ P * lsize H P ∉ interleavedRows H P ∧
    (recvOffset W P (lsize H P - 1) (P - 1), local_size W + 1) ∈ packWrites W H P ∧
    (recvOffset W P (lsize H P - 1) (P - 1), local_size W + 1) ∈ isendWrites W H P ∧
    recvOffsetInt W P (lsize H P - 1) (P - 1)
      = ((recvOffset W P (lsize H P - 1) (P - 1) : Nat) : Int) ∧
    recvOffset W P (lsize H P - 1) (P - 1) + local_size W = P * lsize H P * W + 0 ∧
    ∃ m, packProgram tile W H P buffer im = some m ∧
      m (P * lsize H P * W + 0) = tile (P - 1) (lsize H P - 1) W := by
  have hlt : P * lsize H P < H := by
    have h1 := Nat.div_add_mod H P
    have h2 : H % P ≠ 0 := fun h => hnd (Nat.dvd_of_mod_eq_zero h)
    unfold lsize
    omega
  have hrowP : (lsize H P - 1) * P + (P - 1) + 1 = P * lsize H P := by
    have h1 : lsize H P = (lsize H P - 1) + 1 := by omega
    calc (lsize H P - 1) * P + (P - 1) + 1 = (lsize H P - 1) * P + P := by omega
      _ = ((lsize H P - 1) + 1) * P := by ring
      _ = lsize H P * P := by rw [← h1]
      _ = P * lsize H P := Nat.mul_comm _ _
  have hdest : destRow P (lsize H P - 1) (P - 1) + 1 = P * lsize H P := by
    unfold destRow
    exact hrowP
  have hoff : recvOffset W P (lsize H P - 1) (P - 1) + local_size W
      = P * lsize H P * W + 0 := by
    rw [recvOffset_eq, ← hdest]
    simp only [local_size, Nat.mul_one, Nat.add_zero]
    ring
  have hnext : recvOffset W P (lsize H P - 1 + 1) 0 = P * lsize H P * W + 0 := by
    have h1 : lsize H P - 1 + 1 = lsize H P := by omega
    rw [h1, recvOffset_eq]
    unfold destRow
    simp only [Nat.add_zero]
    rw [Nat.mul_comm (lsize H P) P]
  have hHW : H * W = W * H := Nat.mul_comm _ _
  have hoffle : recvOffset W P (lsize H P - 1) (P - 1) ≤ W * H := by
    have h1 : P * lsize H P * W ≤ H * W := Nat.mul_le_mul_right _ (Nat.le_of_lt hlt)
    omega
  refine ⟨hlt, ?_, ?_, ?_, ?_, ?_, hoff, ?_⟩
  · rw [mem_contiguousRows]
    unfold locheight lsize
    omega
  · rw [mem_interleavedRows]
    omega
  · unfold packWrites
    simp only [List.mem_flatMap, List.mem_map, List.mem_range]
    exact ⟨P - 1, (mem_receiveRanks P (P - 1)).2 ⟨by omega, by omega⟩, lsize H P - 1,
      by omega, rfl⟩
  · unfold isendWrites
    simp only [List.mem_flatMap, List.mem_map, List.mem_range]
    exact ⟨lsize H P - 1, by omega, P - 1, by omega, rfl⟩
  · have hWle : W ≤ W * H := Nat.le_mul_of_pos_right W (by omega)
    have hHle : H ≤ W * H := Nat.le_mul_of_pos_left H (by omega)
    exact recvOffsetInt_eq W P _ _ (by omega) (by omega) (by omega)
  · obtain ⟨m0, m, hm, hlast⟩ := packProgram_last tile W H P buffer im hP hcap
    refine ⟨m, hm, ?_⟩
    obtain ⟨m2, hm2, hb⟩ := unpackRounds_extra_byte W P
      (packedBuffer (tile (P - 1)) W (lsize H P) (buffer (P - 1))) m0 hW hP
      (lsize H P - 1) (lsize H P) (by omega) hcap
    rw [hlast] at hm2
    cases hm2
    rw [hnext] at hb
    rw [hb, packedBuffer_record _ _ _ _ _ _ (by omega) (by simp [local_size])]

/-- Witness of `pack_writes_dropped_row` at `W = 1`, `H = 10`, `P = 3`, where
every computed pixel is 5 and the byte behind each tile is 7: row 9 is
dropped and byte 9 of the raster ends with 7. -/
theorem pack_writes_dropped_row_witness :
    1 ≤ 1 ∧ 2 ≤ 3 ∧ 1 ≤ lsize 10 3 ∧ ¬ 3 ∣ 10 ∧
    lsize 10 3 * (local_size 1 + 1) ≤ bufferCapacity ∧ 1 * 10 ≤ INT_MAX ∧
    (3 * lsize 10 3 < 10 ∧
    3 * lsize 10 3 ∉ contiguousRows 10 3 ∧ 3 * lsize 10 3 ∉ interleavedRows 10 3 ∧
    (recvOffset 1 3 (lsize 10 3 - 1) (3 - 1), local_size 1 + 1) ∈ packWrites 1 10 3 ∧
    (recvOffset 1 3 (lsize 10 3 - 1) (3 - 1), local_size 1 + 1) ∈ isendWrites 1 10 3 ∧
    recvOffsetInt 1 3 (lsize 10 3 - 1) (3 - 1)
      = ((recvOffset 1 3 (lsize 10 3 - 1) (3 - 1) : Nat) : Int) ∧
    recvOffset 1 3 (lsize 10 3 - 1) (3 - 1) + local_size 1 = 3 * lsize 10 3 * 1 + 0 ∧
    ∃ m, packProgram (fun _ _ k => if k < 1 then 5 else 7) 1 10 3 (fun _ _ => 0)
        (fun _ => 99) = some m ∧
      m (3 * lsize 10 3 * 1 + 0)
        = (fun (_ : Nat) (_ : Nat) (k : Nat) => if k < 1 then 5 else 7) (3 - 1)
            (lsize 10 3 - 1) 1) :=
  ⟨by decide, by decide, by decide, by decide, by decide, by decide,
    pack_writes_dropped_row (fun _ _ k => if k < 1 then 5 else 7) 1 10 3 (fun _ _ => 0)
      (fun _ => 99) (by decide) (by decide) (by decide) (by decide) (by decide) (by decide)⟩

/-- Evaluation of `pack.c` with `W = 1`, `H = 10`, `P = 3`, every computed
pixel 5, the byte behind each tile 7, on a raster preset to 99: the dropped
row 9 ends with 7. -/
theorem pack_raster_10_3 :
    (packProgram (fun _ _ k => if k < 1 then 5 else 7) 1 10 3 (fun _ _ => 0)
        (fun _ => 99)).map (fun m => (List.range 10).map m)
      = some [5, 5, 5, 7, 5, 5, 7, 5, 5, 7] := by
  decide

/-- C3 (as stated, refuted).  By the transfer count `local_size+1`: `pack.c`
with `W = 1`, `H = 4`, `P = 2`, budget 1 and bounds `3 4 -1 1`, where the byte
behind each one-byte tile is 7, ends with 7 at raster row 2, column 0, while
`Compute` yields 0 at the point of that cell and the raster of `mpi_omp.c`
holds 0 there.  By the type `int`: for `W = H = 65536` the index
`nb_columns*l+c` of local row 32768, column 0 of `mpi_omp.c` on one rank is
`-2^31` and not `32768 * 65536`. -/
theorem raster_depends_on_transport :
    (∃ m, packProgram (interleavedTile 1 4 2 1 3 4 (-1) 1 (fun _ _ => 7)) 1 4 2
        (fun _ _ => 0) (fun _ => 0) = some m ∧ m (2 * 1 + 0) = 7) ∧
    pixelAt (specPoint 1 4 3 4 (-1) 1 2 0) 1 = 0 ∧
    gatherProgram 1 4 2 1 3 4 (-1) 1 (fun _ => 0) (fun _ => 0) (2 * 1 + 0) = 0 ∧
    tileIndexInt 65536 32768 0 = -2147483648 ∧
    tileIndexInt 65536 32768 0 ≠ ((tileIndex 65536 32768 0 : Nat) : Int) := by
  have hpix : pixelAt (specPoint 1 4 3 4 (-1) 1 2 0) 1 = 0 := by
    have hd : diverged (orbitStep (specPoint 1 4 3 4 (-1) 1 2 0).1
        (specPoint 1 4 3 4 (-1) 1 2 0).2 ((0 : ℚ), (0 : ℚ))) := by
      unfold diverged orbitStep specPoint
      norm_num
    unfold pixelAt iterations
    rw [escape_break _ _ 0 0 0 0 hd, pixelByte_eq]
  refine ⟨?_, hpix, ?_, by decide, by decide⟩
  · obtain ⟨m0, m, hm, hlast⟩ := packProgram_last
      (interleavedTile 1 4 2 1 3 4 (-1) 1 (fun _ _ => 7)) 1 4 2 (fun _ _ => 0) (fun _ => 0)
      (by decide) (by decide)
    refine ⟨m, hm, ?_⟩
    obtain ⟨m2, hm2, hb⟩ := unpackRounds_extra_byte 1 2
      (packedBuffer (interleavedTile 1 4 2 1 3 4 (-1) 1 (fun _ _ => 7) (2 - 1)) 1 (lsize 4 2)
        ((fun _ _ => 0) (2 - 1))) m0 (by decide) (by decide) 0 (lsize 4 2) (by decide)
      (by decide)
    rw [hlast] at hm2
    cases hm2
    have haddr : recvOffset 1 2 (0 + 1) 0 = 2 * 1 + 0 := by decide
    rw [haddr] at hb
    rw [hb, packedBuffer_record _ _ _ _ 0 1 (by decide) (by decide)]
    simp [interleavedTile]
  · rw [gatherProgram_cell 1 4 2 1 3 4 (-1) 1 _ _ (by decide) (by decide) (by decide)
      (by decide) 2 0 (by decide) (by decide)]
    exact hpix

end Mandelbrot
